import Mathlib

/-!
Verification of the TECTO opaque authenticated-token protocol.

The development shallowly embeds the core of the repository:
`src/security.ts` (key entropy validation), `src/keystore.ts`
(in-memory key lifecycle manager), and `src/core.ts` (token engine:
duration parsing, claim assembly, framing, and the decrypt pipeline with
its oracle-resistant error folding).

External runtime primitives that are not part of the repository
(the XChaCha20-Poly1305 AEAD from `@noble/ciphers`, the url-safe base64
codec from `@scure/base`, JSON serialization, `crypto.getRandomValues`
and the system clock) are modelled explicitly; each such definition
carries a doc comment saying so.  Randomness and the clock are passed
as explicit parameters (oracle style), so `encrypt` takes the fresh
nonce, the freshly generated `jti` and the current Unix time as inputs.
-/

set_option maxRecDepth 4000

namespace Tecto

/-- JSON-compatible claim values as used by the token payloads
(the registered claims are numbers and strings; custom payload fields
are restricted to the same value universe in this model). -/
inductive ClaimVal where
  | num (n : Int)
  | str (s : String)
deriving DecidableEq, Repr

deriving instance DecidableEq for Except

/-- A claim set / JS object: an ordered association list from field
names to values, with JS-object update semantics (`mapSet`). -/
abbrev Claims := List (String × ClaimVal)

/-- Errors thrown by the key store and security layer.  The source
(`src/errors.ts`) has a single `KeyError` class; the constructors here
correspond one-to-one to its distinct throw sites and messages:
`keyInvalid` for `assertEntropy` failures, `keyNotFound` for the lookup
failures in `getKey`/`removeKey`, `keyInUse` for removing the current
key, `keyStoreEmpty` for `getCurrentKeyId` on an empty store. -/
inductive KeyErr where
  | keyInvalid (msg : String)
  | keyNotFound (id : String)
  | keyInUse
  | keyStoreEmpty
deriving DecidableEq, Repr

/-- Errors thrown by the token engine (`src/errors.ts`):
`invalidToken` models `InvalidSignatureError` (code TECTO_INVALID_TOKEN),
`tokenExpired`/`tokenNotActive` model `TokenExpiredError` and
`TokenNotActiveError` (carrying the claim timestamp in Unix seconds;
the source wraps it in a `Date`), `invalidDuration` models the
`TectoError` with code TECTO_INVALID_DURATION, and `keyError` wraps the
key-store errors that `encrypt` propagates unchanged. -/
inductive TectoErr where
  | invalidToken
  | tokenExpired (expiredAt : Int)
  | tokenNotActive (activeAt : Int)
  | invalidDuration (duration : String)
  | keyError (e : KeyErr)
deriving DecidableEq, Repr

/-! ### Association-list maps with JS `Map` / JS-object semantics -/

/-- Lookup, first matching binding (`Map.get` / property read). -/
def mapGet {α : Type} (m : List (String × α)) (k : String) : Option α :=
  match m with
  | [] => none
  | (k', v) :: t => if k' = k then some v else mapGet t k

/-- `Map.set` / JS object property write: overwrite in place when the
key is present (keeping insertion order), append otherwise. -/
def mapSet {α : Type} (m : List (String × α)) (k : String) (v : α) :
    List (String × α) :=
  match m with
  | [] => [(k, v)]
  | p :: t => if p.1 = k then (k, v) :: t else p :: mapSet t k v

/-- `Map.delete`: remove the binding for `k`. -/
def mapDelete {α : Type} (m : List (String × α)) (k : String) :
    List (String × α) :=
  match m with
  | [] => []
  | p :: t => if p.1 = k then mapDelete t k else p :: mapDelete t k

/-! ### Security primitives (`src/security.ts`) -/

/-- `key.fill(0)`: overwrite a secret buffer with zeros. -/
def zeroize (b : List Nat) : List Nat := b.map (fun _ => 0)

/-- Embedding of `assertEntropy` (src/security.ts:97-147): rejects keys
whose length is not 32, all-zero keys, single-repeating-byte keys, and
keys with fewer than 8 distinct byte values.  (The source's
`instanceof Uint8Array` guard is enforced by the type here.) -/
def assertEntropy (key : List Nat) : Except KeyErr Unit :=
  if key.length ≠ 32 then
    .error (.keyInvalid "wrong length")
  else if key.all (fun b => b = 0) then
    .error (.keyInvalid "all zeros")
  else if key.all (fun b => b = key.headI) then
    .error (.keyInvalid "repeating single byte")
  else if key.dedup.length < 8 then
    .error (.keyInvalid "insufficient unique bytes")
  else
    .ok ()

/-! ### Key store (`src/keystore.ts`)

The `MemoryKeyStore` class is stateful; we embed each method in
statement-sequencing style: a method takes the pre-state and returns
the thrown/returned outcome together with the post-state as mutated up
to the point of the throw (all throws in the source occur before any
mutation).  The plain `Except`-valued operations are projections. -/

/-- State of `MemoryKeyStore`: the id-to-secret map (insertion ordered,
like a JS `Map`) and the current key id (`null` represented as
`none`). -/
structure MemoryKeyStore where
  keys : List (String × List Nat)
  currentKeyId : Option String
deriving DecidableEq, Repr

/-- The freshly constructed store. -/
def MemoryKeyStore.empty : MemoryKeyStore := ⟨[], none⟩

/-- Embedding of `addKey` (src/keystore.ts:48-58), statement by
statement: `assertEntropy` may throw before any mutation; then the
(cloned) secret is stored; then the id becomes current if the store had
no current key. -/
def addKeySeq (s : MemoryKeyStore) (id : String) (secret : List Nat) :
    Except KeyErr Unit × MemoryKeyStore :=
  match assertEntropy secret with
  | .error e => (.error e, s)
  | .ok _ =>
    let s1 : MemoryKeyStore := { s with keys := mapSet s.keys id secret }
    let s2 : MemoryKeyStore :=
      if s1.currentKeyId = none then { s1 with currentKeyId := some id } else s1
    (.ok (), s2)

/-- `addKey` as a state transformer (`Except` view of `addKeySeq`). -/
def addKey (s : MemoryKeyStore) (id : String) (secret : List Nat) :
    Except KeyErr MemoryKeyStore :=
  match addKeySeq s id secret with
  | (.error e, _) => .error e
  | (.ok _, s') => .ok s'

/-- Embedding of `getKey` (src/keystore.ts:70-76).  (A `Uint8Array` is
always truthy in JS, so the `!key` test is exactly the absence test.) -/
def getKey (s : MemoryKeyStore) (id : String) : Except KeyErr (List Nat) :=
  match mapGet s.keys id with
  | none => .error (.keyNotFound id)
  | some key => .ok key

/-- Embedding of `rotate` (src/keystore.ts:90-93): `addKey` (whose
throw aborts before the current id is touched) then set current. -/
def rotateSeq (s : MemoryKeyStore) (newId : String) (newSecret : List Nat) :
    Except KeyErr Unit × MemoryKeyStore :=
  match addKeySeq s newId newSecret with
  | (.error e, s1) => (.error e, s1)
  | (.ok _, s1) => (.ok (), { s1 with currentKeyId := some newId })

/-- `rotate` as a state transformer. -/
def rotate (s : MemoryKeyStore) (newId : String) (newSecret : List Nat) :
    Except KeyErr MemoryKeyStore :=
  match rotateSeq s newId newSecret with
  | (.error e, _) => .error e
  | (.ok _, s') => .ok s'

/-- Embedding of `removeKey` (src/keystore.ts:107-117): lookup (throw
`keyNotFound` before mutating), current-key guard (throw `keyInUse`
before mutating), then `key.fill(0)` followed by `Map.delete`. -/
def removeKeySeq (s : MemoryKeyStore) (id : String) :
    Except KeyErr Unit × MemoryKeyStore :=
  match mapGet s.keys id with
  | none => (.error (.keyNotFound id), s)
  | some key =>
    if s.currentKeyId = some id then
      (.error .keyInUse, s)
    else
      (.ok (), { s with keys := mapDelete (mapSet s.keys id (zeroize key)) id })

/-- `removeKey` as a state transformer. -/
def removeKey (s : MemoryKeyStore) (id : String) :
    Except KeyErr MemoryKeyStore :=
  match removeKeySeq s id with
  | (.error e, _) => .error e
  | (.ok _, s') => .ok s'

/-- Embedding of `getCurrentKeyId` (src/keystore.ts:125-130). -/
def getCurrentKeyId (s : MemoryKeyStore) : Except KeyErr String :=
  match s.currentKeyId with
  | none => .error .keyStoreEmpty
  | some id => .ok id

/-- Embedding of the `size` getter (src/keystore.ts:135-137). -/
def size (s : MemoryKeyStore) : Nat := s.keys.length

/-! ### Claim-set serialization

Modelled from the spec: step 8 of §4.3 serializes "the merged claim set
to a canonical UTF-8 JSON byte sequence" and step 7 of decryption parses
it back; the source delegates this to the runtime's `JSON.stringify` /
`JSON.parse` and `TextEncoder`/`TextDecoder`, which are not part of the
repository.  We model the serializer as a concrete injective byte
encoding (self-delimiting varints, 3-byte characters, tagged values)
with a strict partial inverse, which is all the protocol relies on. -/

/-- Fuel-indexed worker for `natVarEnc` (structural recursion, so that
concrete tokens evaluate inside the kernel; the fuel is always at least
the value being encoded). -/
def natVarEncAux : Nat → Nat → List Nat
  | 0, n => [n % 128]
  | fuel + 1, n =>
    if n < 128 then [n] else (n % 128 + 128) :: natVarEncAux fuel (n / 128)

/-- Self-delimiting little-endian base-128 varint encoding of a `Nat`.
Every emitted byte is < 256. -/
def natVarEnc (n : Nat) : List Nat := natVarEncAux n n

/-- Decoder for `natVarEnc`, returning the value and the rest of the
stream. -/
def natVarDec : List Nat → Option (Nat × List Nat)
  | [] => none
  | b :: rest =>
    if b < 128 then some (b, rest)
    else
      match natVarDec rest with
      | some (m, rest') => some (b - 128 + 128 * m, rest')
      | none => none

/-- Tagged integer encoding (sign byte then magnitude varint). -/
def intEnc (i : Int) : List Nat :=
  match i with
  | .ofNat n => 0 :: natVarEnc n
  | .negSucc n => 1 :: natVarEnc n

/-- Decoder for `intEnc`. -/
def intDec : List Nat → Option (Int × List Nat)
  | 0 :: rest =>
    match natVarDec rest with
    | some (n, rest') => some (.ofNat n, rest')
    | none => none
  | 1 :: rest =>
    match natVarDec rest with
    | some (n, rest') => some (.negSucc n, rest')
    | none => none
  | _ => none

/-- Fixed-width 3-byte encoding of a character (code points are below
`0x110000 < 2^24`). -/
def charEnc (c : Char) : List Nat :=
  [c.toNat / 65536, c.toNat / 256 % 256, c.toNat % 256]

/-- Partial inverse of `charEnc` on a single code point. -/
def charDec (n : Nat) : Option Char :=
  if n.isValidChar then some (Char.ofNat n) else none

/-- Byte encoding of a character sequence. -/
def charsEnc : List Char → List Nat
  | [] => []
  | c :: t => charEnc c ++ charsEnc t

/-- Decoder for `charsEnc`: reads `n` characters, returns them and the
rest of the stream. -/
def charsDec : Nat → List Nat → Option (List Char × List Nat)
  | 0, rest => some ([], rest)
  | n + 1, a :: b :: c :: rest =>
    match charDec (a * 65536 + b * 256 + c) with
    | some ch =>
      match charsDec n rest with
      | some (t, rest') => some (ch :: t, rest')
      | none => none
    | none => none
  | _ + 1, _ => none

/-- Length-prefixed string encoding. -/
def strEnc (s : String) : List Nat :=
  natVarEnc s.data.length ++ charsEnc s.data

/-- Decoder for `strEnc`. -/
def strDec (bytes : List Nat) : Option (String × List Nat) :=
  match natVarDec bytes with
  | some (n, rest) =>
    match charsDec n rest with
    | some (cs, rest') => some (String.mk cs, rest')
    | none => none
  | none => none

/-- Tagged claim-value encoding. -/
def valEnc : ClaimVal → List Nat
  | .num i => 0 :: intEnc i
  | .str s => 1 :: strEnc s

/-- Decoder for `valEnc`. -/
def valDec : List Nat → Option (ClaimVal × List Nat)
  | 0 :: rest =>
    match intDec rest with
    | some (i, rest') => some (.num i, rest')
    | none => none
  | 1 :: rest =>
    match strDec rest with
    | some (s, rest') => some (.str s, rest')
    | none => none
  | _ => none

/-- Encoding of the claim-set entries, in order. -/
def entsEnc : Claims → List Nat
  | [] => []
  | (k, v) :: t => strEnc k ++ valEnc v ++ entsEnc t

/-- Decoder for `entsEnc`: reads `n` entries. -/
def entsDec : Nat → List Nat → Option (Claims × List Nat)
  | 0, rest => some ([], rest)
  | n + 1, bytes =>
    match strDec bytes with
    | some (k, r1) =>
      match valDec r1 with
      | some (v, r2) =>
        match entsDec n r2 with
        | some (t, r3) => some ((k, v) :: t, r3)
        | none => none
      | none => none
    | none => none

/-- Modelled from the spec: the serializer of §4.3 step 8
(`JSON.stringify` + `TextEncoder` in the source, external to the
repository), as an injective entry-count-prefixed byte encoding. -/
def claimsEnc (c : Claims) : List Nat :=
  natVarEnc c.length ++ entsEnc c

/-- Modelled from the spec: the parser of §4.3 decryption step 7
(`TextDecoder` + `JSON.parse` in the source, external to the
repository); strict inverse of `claimsEnc`, `none` on any malformed
byte sequence. -/
def claimsDecode (bytes : List Nat) : Option Claims :=
  match natVarDec bytes with
  | some (n, rest) =>
    match entsDec n rest with
    | some (c, []) => some c
    | _ => none
  | none => none

/-! ### AEAD cipher -/

/-- Modelled from the spec: the 16-byte Poly1305 authentication tag of
the XChaCha20-Poly1305 AEAD (`@noble/ciphers`, consumed by the source
as an external black box, §1 non-goals).  Modelled as a keyed checksum
of key, nonce and plaintext; each tag byte is < 256. -/
def aeadTag (key nonce pt : List Nat) : List Nat :=
  (List.range 16).map
    (fun i => (key.sum + 2 * nonce.sum + 3 * pt.sum + 5 * pt.length + 7 * i) % 256)

/-- Modelled from the spec: XChaCha20-Poly1305 sealing (§4.3 step 10;
`cipher.encrypt` in the source, external library): ciphertext is the
plaintext with the 16-byte authentication tag appended (§6: "the AEAD
output (plaintext length + 16-byte tag)").  The keystream XOR is
omitted (it is a bijection on the message bytes and irrelevant to the
protocol logic); authentication is modelled exactly: `aeadOpen`
succeeds precisely on outputs of `aeadSeal` under the same key and
nonce. -/
def aeadSeal (key nonce pt : List Nat) : List Nat :=
  pt ++ aeadTag key nonce pt

/-- Modelled from the spec: XChaCha20-Poly1305 opening (§4.3 decryption
step 6; `cipher.decrypt` in the source, external library): split off
the 16-byte tag, recompute and compare, fail (`none`) on any mismatch
or underlength input. -/
def aeadOpen (key nonce ct : List Nat) : Option (List Nat) :=
  if ct.length < 16 then none
  else
    let pt := ct.take (ct.length - 16)
    let tag := ct.drop (ct.length - 16)
    if tag = aeadTag key nonce pt then some pt else none

/-! ### URL-safe base64 -/

/-- The url-safe base64 alphabet character for a 6-bit value. -/
def b64Char (n : Nat) : Char :=
  if n < 26 then Char.ofNat (65 + n)
  else if n < 52 then Char.ofNat (97 + (n - 26))
  else if n < 62 then Char.ofNat (48 + (n - 52))
  else if n = 62 then '-'
  else '_'

/-- 6-bit value of a url-safe base64 character. -/
def b64Val (c : Char) : Option Nat :=
  if 'A' ≤ c ∧ c ≤ 'Z' then some (c.toNat - 65)
  else if 'a' ≤ c ∧ c ≤ 'z' then some (c.toNat - 97 + 26)
  else if '0' ≤ c ∧ c ≤ '9' then some (c.toNat - 48 + 52)
  else if c = '-' then some 62
  else if c = '_' then some 63
  else none

/-- Modelled from the spec: the url-safe, padding-free base64 encoder
(§4.3 step 11; `base64url.encode` from `@scure/base` in the source,
external library). -/
def b64urlEncodeList : List Nat → List Char
  | [] => []
  | [a] => [b64Char (a / 4 % 64), b64Char (a % 4 * 16)]
  | [a, b] =>
    [b64Char (a / 4 % 64), b64Char (a % 4 * 16 + b / 16 % 16),
     b64Char (b % 16 * 4)]
  | a :: b :: c :: rest =>
    b64Char (a / 4 % 64) :: b64Char ((a % 4) * 16 + b / 16 % 16) ::
      b64Char ((b % 16) * 4 + c / 64 % 4) :: b64Char (c % 64) ::
      b64urlEncodeList rest

/-- Modelled from the spec: the url-safe base64 decoder (§4.3
decryption step 4; `base64url.decode` from `@scure/base` in the source,
external library); `none` on characters outside the alphabet or
impossible lengths. -/
def b64urlDecodeList : List Char → Option (List Nat)
  | [] => some []
  | [_] => none
  | [c1, c2] =>
    match b64Val c1, b64Val c2 with
    | some v1, some v2 => some [v1 * 4 + v2 / 16]
    | _, _ => none
  | [c1, c2, c3] =>
    match b64Val c1, b64Val c2, b64Val c3 with
    | some v1, some v2, some v3 =>
      some [v1 * 4 + v2 / 16, v2 % 16 * 16 + v3 / 4]
    | _, _, _ => none
  | c1 :: c2 :: c3 :: c4 :: rest =>
    match b64Val c1, b64Val c2, b64Val c3, b64Val c4 with
    | some v1, some v2, some v3, some v4 =>
      match b64urlDecodeList rest with
      | some bs => some ((v1 * 4 + v2 / 16) :: (v2 % 16 * 16 + v3 / 4) ::
          (v3 % 4 * 64 + v4) :: bs)
      | none => none
    | _, _, _, _ => none

/-! ### Token framing and splitting -/

/-- `token.split(".")` of JS, on the character list of the string:
splits at every separator, keeping empty parts (`"".split(".")` is
`[""]`). -/
def splitOnChar (sep : Char) : List Char → List (List Char)
  | [] => [[]]
  | c :: rest =>
    let r := splitOnChar sep rest
    if c = sep then [] :: r
    else
      match r with
      | [] => [[c]]
      | h :: t => (c :: h) :: t

/-- The `TECTO_PREFIX` constant (src/core.ts:33). -/
def tectoTag : List Char := "tecto".data

/-- The `TECTO_VERSION` constant (src/core.ts:34). -/
def versionTag : List Char := "v1".data

/-- The template-string framing of src/core.ts:174. -/
def frameToken (kid : String) (nB64 cB64 : List Char) : String :=
  String.mk (tectoTag ++ '.' :: versionTag ++ '.' :: kid.data ++
    '.' :: nB64 ++ '.' :: cB64)

/-! ### Duration parsing (src/core.ts:47-72) -/

/-- The whitespace class of the regex's `\s*` (the JS `\s` class
restricted to the ASCII whitespace characters; the claims do not
depend on the Unicode members). -/
def isSpaceChar (c : Char) : Bool :=
  c = ' ' ∨ c = '\t' ∨ c = '\n' ∨ c = '\x0d' ∨ c = '\x0b' ∨ c = '\x0c'

/-- Decimal value of a digit run (`Number.parseInt(_, 10)`). -/
def digitsToNat (ds : List Char) : Nat :=
  ds.foldl (fun acc c => acc * 10 + (c.toNat - 48)) 0

/-- The case-insensitive unit multiplier table of src/core.ts:59-64. -/
def unitSecs (c : Char) : Option Nat :=
  if c = 's' ∨ c = 'S' then some 1
  else if c = 'm' ∨ c = 'M' then some 60
  else if c = 'h' ∨ c = 'H' then some 3600
  else if c = 'd' ∨ c = 'D' then some 86400
  else none

/-- Embedding of `parseDuration` (src/core.ts:47-72): the anchored
regex `(\d+)\s*(s|m|h|d)` (case-insensitive) — a nonempty maximal digit
run, optional whitespace, exactly one unit character, end of string —
then `value * multiplier` in seconds. -/
def parseDuration (duration : String) : Except TectoErr Nat :=
  let cs := duration.data
  let digits := cs.takeWhile Char.isDigit
  let rest := (cs.dropWhile Char.isDigit).dropWhile isSpaceChar
  if digits.isEmpty then .error (.invalidDuration duration)
  else
    match rest with
    | [u] =>
      match unitSecs u with
      | some mult => .ok (digitsToNat digits * mult)
      | none => .error (.invalidDuration duration)
    | _ => .error (.invalidDuration duration)

/-! ### Token engine (src/core.ts) -/

/-- The `SignOptions` interface of src/types.ts: all fields optional. -/
structure SignOptions where
  expiresIn : Option String := none
  notBefore : Option String := none
  issuer : Option String := none
  audience : Option String := none
  jti : Option String := none
deriving DecidableEq, Repr

/-- JS truthiness of an optional string (`if (options?.field)`):
`undefined` and the empty string are falsy. -/
def strTruthy : Option String → Option String
  | some s => if s = "" then none else some s
  | none => none

/-- The `expiresIn` field as tested by `if (options?.expiresIn)`. -/
def expStr (o : Option SignOptions) : Option String :=
  match o with
  | none => none
  | some oo => strTruthy oo.expiresIn

/-- The `notBefore` field as tested by `if (options?.notBefore)`. -/
def nbfStr (o : Option SignOptions) : Option String :=
  match o with
  | none => none
  | some oo => strTruthy oo.notBefore

/-- The `issuer` field as tested by `if (options?.issuer)`. -/
def issStr (o : Option SignOptions) : Option String :=
  match o with
  | none => none
  | some oo => strTruthy oo.issuer

/-- The `audience` field as tested by `if (options?.audience)`. -/
def audStr (o : Option SignOptions) : Option String :=
  match o with
  | none => none
  | some oo => strTruthy oo.audience

/-- `options?.jti ?? generateJti()` (src/core.ts:144): `??` falls back
only on `undefined`/`null`, so a caller-supplied empty string is kept.
`freshJti` is the oracle value of `generateJti()`. -/
def jtiOf (o : Option SignOptions) (freshJti : String) : String :=
  match o with
  | none => freshJti
  | some oo => oo.jti.getD freshJti

/-- Step `claims.exp = now + parseDuration(options.expiresIn)`
(src/core.ts:147-149), including the propagated `InvalidDuration`
throw. -/
def applyExp (o : Option SignOptions) (now : Int) (c : Claims) :
    Except TectoErr Claims :=
  match expStr o with
  | none => .ok c
  | some d =>
    match parseDuration d with
    | .error e => .error e
    | .ok n => .ok (mapSet c "exp" (.num (now + n)))

/-- Step `claims.nbf = now + parseDuration(options.notBefore)`
(src/core.ts:151-153). -/
def applyNbf (o : Option SignOptions) (now : Int) (c : Claims) :
    Except TectoErr Claims :=
  match nbfStr o with
  | none => .ok c
  | some d =>
    match parseDuration d with
    | .error e => .error e
    | .ok n => .ok (mapSet c "nbf" (.num (now + n)))

/-- Step `claims.iss = options.issuer` (src/core.ts:155-157). -/
def applyIss (o : Option SignOptions) (c : Claims) : Claims :=
  match issStr o with
  | none => c
  | some i => mapSet c "iss" (.str i)

/-- Step `claims.aud = options.audience` (src/core.ts:159-161). -/
def applyAud (o : Option SignOptions) (c : Claims) : Claims :=
  match audStr o with
  | none => c
  | some a => mapSet c "aud" (.str a)

/-- The merged claim set built by src/core.ts:141-161: the caller
payload spread first, then `iat`, `jti`, and the optional registered
claims in source order (registered fields win on collision). -/
def buildClaims (payload : Claims) (o : Option SignOptions) (now : Int)
    (freshJti : String) : Except TectoErr Claims :=
  let base := mapSet (mapSet payload "iat" (.num now)) "jti"
    (.str (jtiOf o freshJti))
  match applyExp o now base with
  | .error e => .error e
  | .ok c1 =>
    match applyNbf o now c1 with
    | .error e => .error e
    | .ok c2 => .ok (applyAud o (applyIss o c2))

/-- Embedding of `TectoCoder.encrypt` (src/core.ts:135-175).  The
nondeterministic inputs are explicit oracle parameters: `now` is
`Math.floor(Date.now() / 1000)`, `nonce` is the fresh 24-byte CSPRNG
output of src/core.ts:165-166, `freshJti` is the value `generateJti()`
would produce.  Key-store errors propagate unchanged (wrapped in
`TectoErr.keyError`). -/
def encrypt (s : MemoryKeyStore) (payload : Claims)
    (options : Option SignOptions) (now : Int) (nonce : List Nat)
    (freshJti : String) : Except TectoErr String :=
  match getCurrentKeyId s with
  | .error e => .error (.keyError e)
  | .ok kid =>
    match getKey s kid with
    | .error e => .error (.keyError e)
    | .ok key =>
      match buildClaims payload options now freshJti with
      | .error e => .error e
      | .ok claims =>
        let plaintext := claimsEnc claims
        let ciphertext := aeadSeal key nonce plaintext
        .ok (frameToken kid (b64urlEncodeList nonce)
          (b64urlEncodeList ciphertext))

/-- Steps 1-7 of `TectoCoder.decrypt` (src/core.ts:194-252): split,
segment-count check, protocol/version check, key lookup, base64
decoding, nonce-length check, AEAD open, JSON parse.  Every failure in
this phase is collapsed to `none` (thrown as the one generic
`InvalidSignatureError` by `decrypt`). -/
def decryptParse (s : MemoryKeyStore) (token : String) : Option Claims :=
  match splitOnChar '.' token.data with
  | [pfx, ver, kid, nonceB64, ctB64] =>
    if pfx = tectoTag ∧ ver = versionTag then
      match getKey s (String.mk kid) with
      | .error _ => none
      | .ok key =>
        match b64urlDecodeList nonceB64, b64urlDecodeList ctB64 with
        | some nonce, some ct =>
          if nonce.length = 24 then
            match aeadOpen key nonce ct with
            | none => none
            | some pt => claimsDecode pt
          else none
        | _, _ => none
    else none
  | _ => none

/-- The `nbf` check of src/core.ts:260-262 (`typeof payload.nbf ===
"number" && payload.nbf > now`). -/
def nbfCheck (now : Int) (payload : Claims) : Except TectoErr Claims :=
  match mapGet payload "nbf" with
  | some (.num b) => if now < b then .error (.tokenNotActive b) else .ok payload
  | _ => .ok payload

/-- The time-claim evaluation of src/core.ts:254-264: the `exp` check
(`typeof payload.exp === "number" && payload.exp <= now`) throws first,
then the `nbf` check, then the payload is returned. -/
def timeCheck (now : Int) (payload : Claims) : Except TectoErr Claims :=
  match mapGet payload "exp" with
  | some (.num e) =>
    if e ≤ now then .error (.tokenExpired e) else nbfCheck now payload
  | _ => nbfCheck now payload

/-- Embedding of `TectoCoder.decrypt` (src/core.ts:194-265): the
oracle-resistant parse/authenticate phase, whose every failure is the
single generic `InvalidSignatureError`, followed by the time-claim
checks on the authenticated payload.  `now` is the decrypt-time clock
(src/core.ts:254). -/
def decrypt (s : MemoryKeyStore) (token : String) (now : Int) :
    Except TectoErr Claims :=
  match decryptParse s token with
  | none => .error .invalidToken
  | some payload => timeCheck now payload

/-! ### Reachable key-store states -/

/-- Key-store states reachable from the freshly constructed store by
the `MemoryKeyStore` operations.  `getKey`, `getCurrentKeyId` and
`size` do not mutate, and a failing mutator leaves the state unchanged
(see the atomicity theorem), so only the successful mutators produce
new states. -/
inductive Reachable : MemoryKeyStore → Prop
  | empty : Reachable MemoryKeyStore.empty
  | ofAddKey {s s' : MemoryKeyStore} {id : String} {sec : List Nat} :
      Reachable s → addKey s id sec = .ok s' → Reachable s'
  | ofRotate {s s' : MemoryKeyStore} {id : String} {sec : List Nat} :
      Reachable s → rotate s id sec = .ok s' → Reachable s'
  | ofRemoveKey {s s' : MemoryKeyStore} {id : String} :
      Reachable s → removeKey s id = .ok s' → Reachable s'

/-! ### Concrete test fixtures (used to instantiate the theorems) -/

/-- A 32-byte test secret with 32 distinct byte values. -/
def secA : List Nat := List.range 32

/-- A second, different 32-byte test secret. -/
def secB : List Nat := (List.range 32).map (fun i => i + 1)

/-- The store after `addKey empty "k1" secA`. -/
def storeK1 : MemoryKeyStore := ⟨[("k1", secA)], some "k1"⟩

/-- A store whose current key id contains a dot. -/
def storeDot : MemoryKeyStore := ⟨[("a.b", secA)], some "a.b"⟩

/-- The store after `rotate storeK1 "k1" secB`. -/
def rotatedK1 : MemoryKeyStore := ⟨[("k1", secB)], some "k1"⟩

/-- The store after `rotate storeK1 "k2" secB`. -/
def storeK12 : MemoryKeyStore := ⟨[("k1", secA), ("k2", secB)], some "k2"⟩

/-- A 24-byte test nonce. -/
def nonceA : List Nat := List.range 24

/-- Extracts the token from a successful `encrypt` result. -/
def okToken : Except TectoErr String → String
  | .ok t => t
  | .error _ => ""

/-- Test signing options requesting a one-hour expiry. -/
def optW : Option SignOptions := some { expiresIn := some "1h" }

/-- A test payload with one custom field. -/
def payloadW : Claims := [("role", .str "admin")]

/-- The token sealed from `payloadW` at time 1000 with `nonceA`. -/
def tokenW : String := okToken (encrypt storeK1 payloadW optW 1000 nonceA "abc")

/-- The claim set sealed inside `tokenW`. -/
def claimsW : Claims :=
  [("role", .str "admin"), ("iat", .num 1000), ("jti", .str "abc"),
   ("exp", .num 4600)]

/-- A token sealed under the dotted key id. -/
def tokenDot : String := okToken (encrypt storeDot [] none 0 nonceA "j")

/-- A token whose caller payload already contains an `exp` field. -/
def tokenExpClaim : String :=
  okToken (encrypt storeK1 [("exp", .num 5)] none 1000 nonceA "j")

/-- A token sealed with the valid but degenerate duration `0s`. -/
def tokenZeroDur : String :=
  okToken (encrypt storeK1 [] (some { expiresIn := some "0s" }) 1000 nonceA "j")

/-! ### Lemmas: association-list maps -/

theorem mapGet_mapSet_self {α : Type} (m : List (String × α)) (k : String)
    (v : α) : mapGet (mapSet m k v) k = some v := by
  induction m with
  | nil => simp [mapSet, mapGet]
  | cons p t ih =>
    rw [mapSet]
    by_cases hp : p.1 = k
    · simp [hp, mapGet]
    · simp only [hp, ite_false, if_neg hp, mapGet]
      simpa [hp] using ih

theorem mapGet_mapSet_ne {α : Type} (m : List (String × α)) (k k' : String)
    (v : α) (h : k' ≠ k) : mapGet (mapSet m k' v) k = mapGet m k := by
  induction m with
  | nil => simp [mapSet, mapGet, h]
  | cons p t ih =>
    rw [mapSet]
    by_cases hp : p.1 = k'
    · rw [if_pos hp, mapGet, if_neg h, mapGet,
        if_neg (fun hc : p.1 = k => h (hp ▸ hc))]
    · simp only [hp, ite_false, if_neg hp, mapGet]
      by_cases hk : p.1 = k
      · simp [hk]
      · simpa [hk] using ih

theorem mem_mapSet_of_ne {α : Type} {m : List (String × α)} {p : String × α}
    (hm : p ∈ m) (k : String) (v : α) (h : p.1 ≠ k) : p ∈ mapSet m k v := by
  induction m with
  | nil => simp at hm
  | cons q t ih =>
    rw [mapSet]
    rcases List.mem_cons.1 hm with rfl | hm
    · simp only [h, ite_false, if_neg h]
      exact List.mem_cons_self _ _
    · by_cases hq : q.1 = k
      · simp only [hq, ite_true, if_pos hq]
        exact List.mem_cons_of_mem _ hm
      · simp only [hq, ite_false, if_neg hq]
        exact List.mem_cons_of_mem _ (ih hm)

theorem mapGet_eq_none_of_not_mem {α : Type} {m : List (String × α)}
    {k : String} (h : mapGet m k = none) :
    ∀ v, (k, v) ∉ m := by
  induction m with
  | nil => simp
  | cons p t ih =>
    rw [mapGet] at h
    by_cases hp : p.1 = k
    · simp [hp] at h
    · simp only [hp, ite_false, if_neg hp] at h
      intro v hv
      rcases List.mem_cons.1 hv with hv | hv
      · exact hp (by simp [← hv])
      · exact ih h v hv

theorem mapGet_mapDelete_self {α : Type} (m : List (String × α))
    (k : String) : mapGet (mapDelete m k) k = none := by
  induction m with
  | nil => simp [mapDelete, mapGet]
  | cons p t ih =>
    rw [mapDelete]
    by_cases hp : p.1 = k
    · simpa [hp] using ih
    · simpa [hp, mapGet] using ih

theorem mapGet_mapDelete_ne {α : Type} (m : List (String × α))
    (k k' : String) (h : k' ≠ k) :
    mapGet (mapDelete m k') k = mapGet m k := by
  induction m with
  | nil => simp [mapDelete]
  | cons p t ih =>
    rw [mapDelete]
    by_cases hp : p.1 = k'
    · rw [if_pos hp, ih, mapGet, if_neg (fun hc : p.1 = k => h (hp ▸ hc))]
    · rw [if_neg hp, mapGet, mapGet]
      by_cases hk : p.1 = k
      · simp [hk]
      · simpa [hk] using ih

/-! ### Lemmas: serialization round trip -/

theorem natVarEncAux_irrel (fuel₁ : Nat) : ∀ fuel₂ n, n ≤ fuel₁ →
    n ≤ fuel₂ → natVarEncAux fuel₁ n = natVarEncAux fuel₂ n := by
  induction fuel₁ with
  | zero =>
    intro fuel₂ n h1 h2
    have hz : n = 0 := by omega
    subst hz
    cases fuel₂ with
    | zero => rfl
    | succ f => simp [natVarEncAux]
  | succ f ih =>
    intro fuel₂ n h1 h2
    cases fuel₂ with
    | zero =>
      have hz : n = 0 := by omega
      subst hz
      simp [natVarEncAux]
    | succ f2 =>
      rw [natVarEncAux, natVarEncAux]
      by_cases hn : n < 128
      · simp [hn]
      · simp only [hn, ite_false, if_neg hn]
        rw [ih f2 (n / 128) (by omega) (by omega)]

/-- The recursive unfolding of `natVarEnc`. -/
theorem natVarEnc_eq (n : Nat) : natVarEnc n =
    if n < 128 then [n] else (n % 128 + 128) :: natVarEnc (n / 128) := by
  rw [natVarEnc]
  cases n with
  | zero => simp [natVarEncAux]
  | succ m =>
    rw [natVarEncAux]
    by_cases h : m + 1 < 128
    · simp [h]
    · simp only [h, ite_false, if_neg h]
      rw [natVarEncAux_irrel m ((m + 1) / 128) ((m + 1) / 128) (by omega)
        (by omega), natVarEnc]

theorem natVarEnc_lt (n : Nat) : ∀ b ∈ natVarEnc n, b < 256 := by
  induction n using Nat.strong_induction_on with
  | _ n ih =>
    rw [natVarEnc_eq]
    split
    · intro b hb
      rename_i h
      simp only [List.mem_singleton] at hb
      omega
    · intro b hb
      rename_i h
      rcases List.mem_cons.1 hb with hb | hb
      · omega
      · exact ih (n / 128) (Nat.div_lt_self (by omega) (by omega)) b hb

theorem natVarDec_enc (n : Nat) (r : List Nat) :
    natVarDec (natVarEnc n ++ r) = some (n, r) := by
  induction n using Nat.strong_induction_on with
  | _ n ih =>
    rw [natVarEnc_eq]
    split
    · rename_i h
      simp [natVarDec, h]
    · rename_i h
      rw [List.cons_append, natVarDec]
      rw [if_neg (by omega)]
      rw [ih (n / 128) (Nat.div_lt_self (by omega) (by omega))]
      simp
      omega

theorem intDec_enc (i : Int) (r : List Nat) :
    intDec (intEnc i ++ r) = some (i, r) := by
  cases i with
  | ofNat n => simp [intEnc, intDec, natVarDec_enc]
  | negSucc n => simp [intEnc, intDec, natVarDec_enc]

theorem charToNat_lt (c : Char) : c.toNat < 1114112 := by
  have h := c.valid
  rcases h with h | ⟨h1, h2⟩ <;> simp [Char.toNat] <;> omega

/-- Rebuilding a string from its character data is the identity. -/
theorem stringMk_data (s : String) : String.mk s.data = s := rfl

theorem charDec_toNat (c : Char) : charDec c.toNat = some c := by
  have hv : c.toNat.isValidChar := c.valid
  rw [charDec, if_pos hv, Char.ofNat_toNat]

theorem charEnc_lt (c : Char) : ∀ b ∈ charEnc c, b < 256 := by
  have h := charToNat_lt c
  intro b hb
  simp only [charEnc, List.mem_cons, List.not_mem_nil, or_false] at hb
  rcases hb with hb | hb | hb <;> subst hb <;> omega

theorem charsEnc_lt (l : List Char) : ∀ b ∈ charsEnc l, b < 256 := by
  induction l with
  | nil => simp [charsEnc]
  | cons c t ih =>
    intro b hb
    rw [charsEnc] at hb
    rcases List.mem_append.1 hb with hb | hb
    · exact charEnc_lt c b hb
    · exact ih b hb

theorem charsDec_enc (l : List Char) (r : List Nat) :
    charsDec l.length (charsEnc l ++ r) = some (l, r) := by
  induction l with
  | nil => simp [charsEnc, charsDec]
  | cons c t ih =>
    have h := charToNat_lt c
    rw [charsEnc, List.length_cons, List.append_assoc, charEnc]
    rw [List.cons_append, List.cons_append, List.cons_append,
      List.nil_append, charsDec]
    have harith : c.toNat / 65536 * 65536 + c.toNat / 256 % 256 * 256 +
        c.toNat % 256 = c.toNat := by omega
    rw [harith, charDec_toNat, ih]

theorem strDec_enc (s : String) (r : List Nat) :
    strDec (strEnc s ++ r) = some (s, r) := by
  have h := charsDec_enc s.data r
  simp at h
  simp [strEnc, strDec, List.append_assoc, natVarDec_enc, h, stringMk_data]

theorem valDec_enc (v : ClaimVal) (r : List Nat) :
    valDec (valEnc v ++ r) = some (v, r) := by
  cases v with
  | num i => simp [valEnc, valDec, List.append_assoc, intDec_enc]
  | str s => simp [valEnc, valDec, List.append_assoc, strDec_enc]

theorem entsDec_enc (c : Claims) (r : List Nat) :
    entsDec c.length (entsEnc c ++ r) = some (c, r) := by
  induction c generalizing r with
  | nil => simp [entsEnc, entsDec]
  | cons p t ih =>
    obtain ⟨k, v⟩ := p
    simp [entsEnc, entsDec, List.append_assoc, strDec_enc, valDec_enc, ih]

theorem claimsDecode_enc (c : Claims) :
    claimsDecode (claimsEnc c) = some c := by
  have h := entsDec_enc c []
  rw [List.append_nil] at h
  simp [claimsEnc, claimsDecode, natVarDec_enc, h]

theorem intEnc_lt (i : Int) : ∀ b ∈ intEnc i, b < 256 := by
  cases i with
  | ofNat n =>
    intro b hb
    rcases List.mem_cons.1 hb with hb | hb
    · omega
    · exact natVarEnc_lt n b hb
  | negSucc n =>
    intro b hb
    rcases List.mem_cons.1 hb with hb | hb
    · omega
    · exact natVarEnc_lt n b hb

theorem strEnc_lt (s : String) : ∀ b ∈ strEnc s, b < 256 := by
  intro b hb
  rcases List.mem_append.1 hb with hb | hb
  · exact natVarEnc_lt _ b hb
  · exact charsEnc_lt _ b hb

theorem valEnc_lt (v : ClaimVal) : ∀ b ∈ valEnc v, b < 256 := by
  cases v with
  | num i =>
    intro b hb
    rcases List.mem_cons.1 hb with hb | hb
    · omega
    · exact intEnc_lt i b hb
  | str s =>
    intro b hb
    rcases List.mem_cons.1 hb with hb | hb
    · omega
    · exact strEnc_lt s b hb

theorem entsEnc_lt (c : Claims) : ∀ b ∈ entsEnc c, b < 256 := by
  induction c with
  | nil => simp [entsEnc]
  | cons p t ih =>
    intro b hb
    rw [entsEnc] at hb
    rcases List.mem_append.1 hb with hb | hb
    · rcases List.mem_append.1 hb with hb | hb
      · exact strEnc_lt p.1 b hb
      · exact valEnc_lt p.2 b hb
    · exact ih b hb

theorem claimsEnc_lt (c : Claims) : ∀ b ∈ claimsEnc c, b < 256 := by
  intro b hb
  rcases List.mem_append.1 hb with hb | hb
  · exact natVarEnc_lt _ b hb
  · exact entsEnc_lt c b hb

/-! ### Lemmas: AEAD model -/

theorem aeadTag_length (key nonce pt : List Nat) :
    (aeadTag key nonce pt).length = 16 := by
  simp [aeadTag]

theorem aeadTag_lt (key nonce pt : List Nat) :
    ∀ b ∈ aeadTag key nonce pt, b < 256 := by
  intro b hb
  simp only [aeadTag, List.mem_map] at hb
  obtain ⟨i, _, hi⟩ := hb
  omega

theorem aeadOpen_seal (key nonce pt : List Nat) :
    aeadOpen key nonce (aeadSeal key nonce pt) = some pt := by
  rw [aeadSeal, aeadOpen]
  have hl : (pt ++ aeadTag key nonce pt).length = pt.length + 16 := by
    simp [aeadTag_length]
  rw [if_neg (by omega)]
  have h1 : (pt ++ aeadTag key nonce pt).length - 16 = pt.length := by omega
  rw [h1]
  simp [List.take_left, List.drop_left]

theorem aeadSeal_lt (key nonce pt : List Nat) (h : ∀ b ∈ pt, b < 256) :
    ∀ b ∈ aeadSeal key nonce pt, b < 256 := by
  intro b hb
  rcases List.mem_append.1 hb with hb | hb
  · exact h b hb
  · exact aeadTag_lt key nonce pt b hb

/-! ### Lemmas: url-safe base64 -/

theorem b64Char_ne_dot : ∀ n, n < 64 → b64Char n ≠ '.' := by decide

theorem b64Val_b64Char : ∀ n, n < 64 → b64Val (b64Char n) = some n := by
  decide

theorem b64urlEncodeList_ne_dot (l : List Nat) :
    ∀ ch ∈ b64urlEncodeList l, ch ≠ '.' := by
  induction l using b64urlEncodeList.induct with
  | case1 => simp [b64urlEncodeList]
  | case2 a =>
    intro ch hch
    rw [b64urlEncodeList] at hch
    simp only [List.mem_cons, List.not_mem_nil, or_false] at hch
    rcases hch with hch | hch <;> subst hch <;>
      exact b64Char_ne_dot _ (by omega)
  | case3 a b =>
    intro ch hch
    rw [b64urlEncodeList] at hch
    simp only [List.mem_cons, List.not_mem_nil, or_false] at hch
    rcases hch with hch | hch | hch <;> subst hch <;>
      exact b64Char_ne_dot _ (by omega)
  | case4 a b c rest ih =>
    intro ch hch
    rw [b64urlEncodeList] at hch
    simp only [List.mem_cons] at hch
    rcases hch with hch | hch | hch | hch | hch
    · exact hch ▸ b64Char_ne_dot _ (by omega)
    · exact hch ▸ b64Char_ne_dot _ (by omega)
    · exact hch ▸ b64Char_ne_dot _ (by omega)
    · exact hch ▸ b64Char_ne_dot _ (by omega)
    · exact ih ch hch

theorem b64urlDecode_encode (l : List Nat) (h : ∀ b ∈ l, b < 256) :
    b64urlDecodeList (b64urlEncodeList l) = some l := by
  induction l using b64urlEncodeList.induct with
  | case1 => rfl
  | case2 a =>
    have ha : a < 256 := h a (by simp)
    rw [b64urlEncodeList, b64urlDecodeList,
      b64Val_b64Char _ (by omega), b64Val_b64Char _ (by omega)]
    simp only [Option.some.injEq]
    have : a / 4 % 64 * 4 + a % 4 * 16 / 16 = a := by omega
    rw [this]
  | case3 a b =>
    have ha : a < 256 := h a (by simp)
    have hb : b < 256 := h b (by simp)
    rw [b64urlEncodeList, b64urlDecodeList, b64Val_b64Char _ (by omega),
      b64Val_b64Char _ (by omega), b64Val_b64Char _ (by omega)]
    simp only [Option.some.injEq]
    have h1 : a / 4 % 64 * 4 + (a % 4 * 16 + b / 16 % 16) / 16 = a := by
      omega
    have h2 : (a % 4 * 16 + b / 16 % 16) % 16 * 16 + b % 16 * 4 / 4 = b := by
      omega
    rw [h1, h2]
  | case4 a b c rest ih =>
    have ha : a < 256 := h a (by simp)
    have hb : b < 256 := h b (by simp)
    have hc : c < 256 := h c (by simp)
    have hrest : ∀ x ∈ rest, x < 256 := fun x hx => h x (by simp [hx])
    rw [b64urlEncodeList, b64urlDecodeList, b64Val_b64Char _ (by omega),
      b64Val_b64Char _ (by omega), b64Val_b64Char _ (by omega),
      b64Val_b64Char _ (by omega), ih hrest]
    simp only [Option.some.injEq]
    have h1 : a / 4 % 64 * 4 + (a % 4 * 16 + b / 16 % 16) / 16 = a := by
      omega
    have h2 : (a % 4 * 16 + b / 16 % 16) % 16 * 16 +
        (b % 16 * 4 + c / 64 % 4) / 4 = b := by omega
    have h3 : (b % 16 * 4 + c / 64 % 4) % 4 * 64 + c % 64 = c := by omega
    rw [h1, h2, h3]

/-- A url-safe base64 string cut at the first separator is unique:
two no-dot chunks followed by a dot and a tail agree chunkwise. -/
theorem append_sep_inj {sep : Char} {x₁ x₂ y₁ y₂ : List Char}
    (h₁ : sep ∉ x₁) (h₂ : sep ∉ x₂)
    (h : x₁ ++ sep :: y₁ = x₂ ++ sep :: y₂) : x₁ = x₂ ∧ y₁ = y₂ := by
  induction x₁ generalizing x₂ with
  | nil =>
    cases x₂ with
    | nil => simpa using h
    | cons c t =>
      simp only [List.nil_append, List.cons_append, List.cons_eq_cons] at h
      exact absurd (h.1 ▸ List.mem_cons_self c t) h₂
  | cons c t ih =>
    cases x₂ with
    | nil =>
      simp only [List.nil_append, List.cons_append, List.cons_eq_cons] at h
      exact absurd (h.1 ▸ List.mem_cons_self c t) h₁
    | cons d u =>
      simp only [List.cons_append, List.cons_eq_cons] at h
      obtain ⟨rfl, h⟩ := h
      have := ih (fun hm => h₁ (List.mem_cons_of_mem _ hm))
        (fun hm => h₂ (List.mem_cons_of_mem _ hm)) h
      exact ⟨by rw [this.1], this.2⟩

/-! ### Lemmas: token splitting -/

theorem splitOnChar_not_mem (sep : Char) (l : List Char) (h : sep ∉ l) :
    splitOnChar sep l = [l] := by
  induction l with
  | nil => rfl
  | cons c t ih =>
    have hc : c ≠ sep := fun hc => h (hc ▸ List.mem_cons_self c t)
    have ht : sep ∉ t := fun hm => h (List.mem_cons_of_mem _ hm)
    rw [splitOnChar]
    simp only [hc, ite_false, if_neg hc, ih ht]

theorem splitOnChar_append (sep : Char) (a b : List Char) (h : sep ∉ a) :
    splitOnChar sep (a ++ sep :: b) = a :: splitOnChar sep b := by
  induction a with
  | nil => simp [splitOnChar]
  | cons c t ih =>
    have hc : c ≠ sep := fun hc => h (hc ▸ List.mem_cons_self c t)
    have ht : sep ∉ t := fun hm => h (List.mem_cons_of_mem _ hm)
    rw [List.cons_append, splitOnChar]
    simp only [hc, ite_false, if_neg hc, ih ht]

theorem splitOnChar_frame (kid : String) (nB64 cB64 : List Char)
    (hk : '.' ∉ kid.data) (hn : '.' ∉ nB64) (hc : '.' ∉ cB64) :
    splitOnChar '.' (frameToken kid nB64 cB64).data =
      [tectoTag, versionTag, kid.data, nB64, cB64] := by
  have hdata : (frameToken kid nB64 cB64).data =
      tectoTag ++ '.' :: (versionTag ++ '.' :: (kid.data ++
        '.' :: (nB64 ++ '.' :: cB64))) := by
    simp [frameToken, List.append_assoc]
  rw [hdata]
  rw [splitOnChar_append _ _ _ (by decide)]
  rw [splitOnChar_append _ _ _ (by decide)]
  rw [splitOnChar_append _ _ _ hk]
  rw [splitOnChar_append _ _ _ hn]
  rw [splitOnChar_not_mem _ _ hc]

/-! ### Lemmas: the decrypt pipeline on well-formed frames -/

theorem getKey_eq_ok {s : MemoryKeyStore} {kid : String} {key : List Nat}
    (h : mapGet s.keys kid = some key) : getKey s kid = .ok key := by
  rw [getKey, h]

theorem decryptParse_frame (s : MemoryKeyStore) (kid : String)
    (key nonce ct : List Nat)
    (hkey : getKey s kid = .ok key) (hk : '.' ∉ kid.data)
    (hn24 : nonce.length = 24) (hnb : ∀ b ∈ nonce, b < 256)
    (hcb : ∀ b ∈ ct, b < 256) :
    decryptParse s (frameToken kid (b64urlEncodeList nonce)
      (b64urlEncodeList ct)) =
      (match aeadOpen key nonce ct with
       | none => none
       | some pt => claimsDecode pt) := by
  have hndot : '.' ∉ b64urlEncodeList nonce := fun hm =>
    b64urlEncodeList_ne_dot _ _ hm rfl
  have hcdot : '.' ∉ b64urlEncodeList ct := fun hm =>
    b64urlEncodeList_ne_dot _ _ hm rfl
  rw [decryptParse]
  rw [splitOnChar_frame kid _ _ hk hndot hcdot]
  simp only [and_self, ite_true, if_pos trivial, stringMk_data, hkey,
    b64urlDecode_encode nonce hnb, b64urlDecode_encode ct hcb, hn24]

theorem encrypt_ok (s : MemoryKeyStore) (payload : Claims)
    (o : Option SignOptions) (now : Int) (nonce : List Nat) (j : String)
    (kid : String) (key : List Nat) (claims : Claims)
    (hcur : s.currentKeyId = some kid)
    (hkey : mapGet s.keys kid = some key)
    (hbuild : buildClaims payload o now j = .ok claims) :
    encrypt s payload o now nonce j = .ok (frameToken kid
      (b64urlEncodeList nonce)
      (b64urlEncodeList (aeadSeal key nonce (claimsEnc claims)))) := by
  simp only [encrypt, getCurrentKeyId, hcur, getKey, hkey, hbuild]

/-- The central round-trip lemma: decrypting (under any store that
still resolves the sealing key) a token produced by `encrypt` reduces
to the time-claim evaluation of the sealed claim set. -/
theorem decrypt_encrypt (s s' : MemoryKeyStore) (payload : Claims)
    (o : Option SignOptions) (now now₂ : Int) (nonce : List Nat)
    (j : String) (kid : String) (key : List Nat) (claims : Claims)
    (token : String)
    (hcur : s.currentKeyId = some kid)
    (hkey : mapGet s.keys kid = some key)
    (hkey' : mapGet s'.keys kid = some key)
    (hk : '.' ∉ kid.data)
    (hn24 : nonce.length = 24) (hnb : ∀ b ∈ nonce, b < 256)
    (hbuild : buildClaims payload o now j = .ok claims)
    (htok : encrypt s payload o now nonce j = .ok token) :
    decrypt s' token now₂ = timeCheck now₂ claims := by
  rw [encrypt_ok s payload o now nonce j kid key claims hcur hkey hbuild]
    at htok
  injection htok with htok
  subst htok
  rw [decrypt, decryptParse_frame s' kid key nonce _
    (getKey_eq_ok hkey') hk hn24 hnb
    (aeadSeal_lt key nonce _ (claimsEnc_lt claims))]
  simp only [aeadOpen_seal, claimsDecode_enc]

/-! ### Lemmas: the built claim set -/

theorem mapGet_applyIss_ne (o : Option SignOptions) (c : Claims)
    (k : String) (h : k ≠ "iss") :
    mapGet (applyIss o c) k = mapGet c k := by
  rw [applyIss]
  cases issStr o with
  | none => rfl
  | some i => exact mapGet_mapSet_ne c k "iss" _ (Ne.symm h)

theorem mapGet_applyAud_ne (o : Option SignOptions) (c : Claims)
    (k : String) (h : k ≠ "aud") :
    mapGet (applyAud o c) k = mapGet c k := by
  rw [applyAud]
  cases audStr o with
  | none => rfl
  | some a => exact mapGet_mapSet_ne c k "aud" _ (Ne.symm h)

theorem mem_applyIss (o : Option SignOptions) {c : Claims}
    {p : String × ClaimVal} (hm : p ∈ c) (h : p.1 ≠ "iss") :
    p ∈ applyIss o c := by
  rw [applyIss]
  cases issStr o with
  | none => exact hm
  | some i => exact mem_mapSet_of_ne hm _ _ h

theorem mem_applyAud (o : Option SignOptions) {c : Claims}
    {p : String × ClaimVal} (hm : p ∈ c) (h : p.1 ≠ "aud") :
    p ∈ applyAud o c := by
  rw [applyAud]
  cases audStr o with
  | none => exact hm
  | some a => exact mem_mapSet_of_ne hm _ _ h

theorem timeCheck_pass (now : Int) (P : Claims)
    (hexp : ∀ e, mapGet P "exp" = some (.num e) → now < e)
    (hnbf : ∀ b, mapGet P "nbf" = some (.num b) → b ≤ now) :
    timeCheck now P = .ok P := by
  have hn : nbfCheck now P = .ok P := by
    rw [nbfCheck]
    cases hb : mapGet P "nbf" with
    | none => rfl
    | some v =>
      cases v with
      | num b =>
        have hle := hnbf b hb
        show (if now < b then Except.error (TectoErr.tokenNotActive b)
          else Except.ok P) = Except.ok P
        rw [if_neg (by omega)]
      | str x => rfl
  rw [timeCheck]
  cases he : mapGet P "exp" with
  | none => exact hn
  | some v =>
    cases v with
    | num e =>
      have hlt := hexp e he
      show (if e ≤ now then Except.error (TectoErr.tokenExpired e)
        else nbfCheck now P) = Except.ok P
      rw [if_neg (by omega)]
      exact hn
    | str x => exact hn

theorem ne_key_of_get_none {α : Type} {m : List (String × α)} {k : String}
    (h : mapGet m k = none) {p : String × α} (hm : p ∈ m) : p.1 ≠ k := by
  intro hk
  apply mapGet_eq_none_of_not_mem h p.2
  rw [← hk]
  exact hm

/-- Complete description of the merged claim set built by `encrypt`
for payloads that avoid the registered claim names. -/
theorem buildClaims_spec (payload : Claims) (o : Option SignOptions)
    (now : Int) (j : String) (claims : Claims)
    (hiat0 : mapGet payload "iat" = none)
    (hjti0 : mapGet payload "jti" = none)
    (hexp0 : mapGet payload "exp" = none)
    (hnbf0 : mapGet payload "nbf" = none)
    (hiss0 : mapGet payload "iss" = none)
    (haud0 : mapGet payload "aud" = none)
    (hb : buildClaims payload o now j = .ok claims) :
    mapGet claims "iat" = some (.num now) ∧
    mapGet claims "jti" = some (.str (jtiOf o j)) ∧
    (∀ p ∈ payload, p ∈ claims) ∧
    (expStr o = none → mapGet claims "exp" = none) ∧
    (∀ d, expStr o = some d → ∃ n, parseDuration d = .ok n ∧
      mapGet claims "exp" = some (.num (now + n))) ∧
    (nbfStr o = none → mapGet claims "nbf" = none) ∧
    (∀ d, nbfStr o = some d → ∃ n, parseDuration d = .ok n ∧
      mapGet claims "nbf" = some (.num (now + n))) ∧
    (issStr o = none → mapGet claims "iss" = none) ∧
    (∀ i, issStr o = some i → mapGet claims "iss" = some (.str i)) ∧
    (audStr o = none → mapGet claims "aud" = none) ∧
    (∀ a, audStr o = some a → mapGet claims "aud" = some (.str a)) := by
  have hbase_iat : mapGet (mapSet (mapSet payload "iat" (.num now)) "jti"
      (.str (jtiOf o j))) "iat" = some (.num now) := by
    rw [mapGet_mapSet_ne _ _ _ _ (by decide), mapGet_mapSet_self]
  have hbase_jti : mapGet (mapSet (mapSet payload "iat" (.num now)) "jti"
      (.str (jtiOf o j))) "jti" = some (.str (jtiOf o j)) := by
    rw [mapGet_mapSet_self]
  have hbase_get : ∀ k, k ≠ "iat" → k ≠ "jti" →
      mapGet (mapSet (mapSet payload "iat" (.num now)) "jti"
        (.str (jtiOf o j))) k = mapGet payload k := by
    intro k h1 h2
    rw [mapGet_mapSet_ne _ _ _ _ (Ne.symm h2),
      mapGet_mapSet_ne _ _ _ _ (Ne.symm h1)]
  have hbase_mem : ∀ p ∈ payload, p ∈ mapSet (mapSet payload "iat"
      (.num now)) "jti" (.str (jtiOf o j)) := by
    intro p hp
    exact mem_mapSet_of_ne (mem_mapSet_of_ne hp _ _
      (ne_key_of_get_none hiat0 hp)) _ _ (ne_key_of_get_none hjti0 hp)
  rw [buildClaims] at hb
  have main : ∃ c2,
      claims = applyAud o (applyIss o c2) ∧
      mapGet c2 "iat" = some (.num now) ∧
      mapGet c2 "jti" = some (.str (jtiOf o j)) ∧
      (∀ p ∈ payload, p ∈ c2) ∧
      (expStr o = none → mapGet c2 "exp" = none) ∧
      (∀ d, expStr o = some d → ∃ n, parseDuration d = .ok n ∧
        mapGet c2 "exp" = some (.num (now + n))) ∧
      (nbfStr o = none → mapGet c2 "nbf" = none) ∧
      (∀ d, nbfStr o = some d → ∃ n, parseDuration d = .ok n ∧
        mapGet c2 "nbf" = some (.num (now + n))) ∧
      mapGet c2 "iss" = none ∧
      mapGet c2 "aud" = none := by
    cases hE : expStr o with
    | none =>
      simp only [applyExp, hE] at hb
      cases hN : nbfStr o with
      | none =>
        simp only [applyNbf, hN] at hb
        injection hb with hb
        refine ⟨_, hb.symm, hbase_iat, hbase_jti, hbase_mem, ?_, ?_, ?_,
          ?_, ?_, ?_⟩
        · intro _; rw [hbase_get "exp" (by decide) (by decide)]; exact hexp0
        · intro d hd; cases hd
        · intro _; rw [hbase_get "nbf" (by decide) (by decide)]; exact hnbf0
        · intro d hd; cases hd
        · rw [hbase_get "iss" (by decide) (by decide)]; exact hiss0
        · rw [hbase_get "aud" (by decide) (by decide)]; exact haud0
      | some d =>
        simp only [applyNbf, hN] at hb
        cases hP : parseDuration d with
        | error e => rw [hP] at hb; cases hb
        | ok n =>
          rw [hP] at hb
          injection hb with hb
          refine ⟨_, hb.symm, ?_, ?_, ?_, ?_, ?_, ?_, ?_, ?_, ?_⟩
          · rw [mapGet_mapSet_ne _ _ _ _ (by decide)]; exact hbase_iat
          · rw [mapGet_mapSet_ne _ _ _ _ (by decide)]; exact hbase_jti
          · intro p hp
            exact mem_mapSet_of_ne (hbase_mem p hp) _ _
              (ne_key_of_get_none hnbf0 hp)
          · intro _
            rw [mapGet_mapSet_ne _ _ _ _ (by decide),
              hbase_get "exp" (by decide) (by decide)]
            exact hexp0
          · intro d' hd'; cases hd'
          · intro hN'; cases hN'
          · intro d' hd'
            injection hd' with hd'
            subst hd'
            exact ⟨n, hP, mapGet_mapSet_self _ _ _⟩
          · rw [mapGet_mapSet_ne _ _ _ _ (by decide),
              hbase_get "iss" (by decide) (by decide)]
            exact hiss0
          · rw [mapGet_mapSet_ne _ _ _ _ (by decide),
              hbase_get "aud" (by decide) (by decide)]
            exact haud0
    | some d =>
      simp only [applyExp, hE] at hb
      cases hP : parseDuration d with
      | error e => rw [hP] at hb; cases hb
      | ok n =>
        rw [hP] at hb
        cases hN : nbfStr o with
        | none =>
          simp only [applyNbf, hN] at hb
          injection hb with hb
          refine ⟨_, hb.symm, ?_, ?_, ?_, ?_, ?_, ?_, ?_, ?_, ?_⟩
          · rw [mapGet_mapSet_ne _ _ _ _ (by decide)]; exact hbase_iat
          · rw [mapGet_mapSet_ne _ _ _ _ (by decide)]; exact hbase_jti
          · intro p hp
            exact mem_mapSet_of_ne (hbase_mem p hp) _ _
              (ne_key_of_get_none hexp0 hp)
          · intro hE'; cases hE'
          · intro d' hd'
            injection hd' with hd'
            subst hd'
            exact ⟨n, hP, mapGet_mapSet_self _ _ _⟩
          · intro _
            rw [mapGet_mapSet_ne _ _ _ _ (by decide),
              hbase_get "nbf" (by decide) (by decide)]
            exact hnbf0
          · intro d' hd'; cases hd'
          · rw [mapGet_mapSet_ne _ _ _ _ (by decide),
              hbase_get "iss" (by decide) (by decide)]
            exact hiss0
          · rw [mapGet_mapSet_ne _ _ _ _ (by decide),
              hbase_get "aud" (by decide) (by decide)]
            exact haud0
        | some d2 =>
          simp only [applyNbf, hN] at hb
          cases hP2 : parseDuration d2 with
          | error e => rw [hP2] at hb; cases hb
          | ok n2 =>
            rw [hP2] at hb
            injection hb with hb
            refine ⟨_, hb.symm, ?_, ?_, ?_, ?_, ?_, ?_, ?_, ?_, ?_⟩
            · rw [mapGet_mapSet_ne _ _ _ _ (by decide),
                mapGet_mapSet_ne _ _ _ _ (by decide)]
              exact hbase_iat
            · rw [mapGet_mapSet_ne _ _ _ _ (by decide),
                mapGet_mapSet_ne _ _ _ _ (by decide)]
              exact hbase_jti
            · intro p hp
              exact mem_mapSet_of_ne (mem_mapSet_of_ne (hbase_mem p hp)
                _ _ (ne_key_of_get_none hexp0 hp)) _ _
                (ne_key_of_get_none hnbf0 hp)
            · intro hE'; cases hE'
            · intro d' hd'
              injection hd' with hd'
              subst hd'
              refine ⟨n, hP, ?_⟩
              rw [mapGet_mapSet_ne _ _ _ _ (by decide), mapGet_mapSet_self]
            · intro hN'; cases hN'
            · intro d' hd'
              injection hd' with hd'
              subst hd'
              exact ⟨n2, hP2, mapGet_mapSet_self _ _ _⟩
            · rw [mapGet_mapSet_ne _ _ _ _ (by decide),
                mapGet_mapSet_ne _ _ _ _ (by decide),
                hbase_get "iss" (by decide) (by decide)]
              exact hiss0
            · rw [mapGet_mapSet_ne _ _ _ _ (by decide),
                mapGet_mapSet_ne _ _ _ _ (by decide),
                hbase_get "aud" (by decide) (by decide)]
              exact haud0
  obtain ⟨c2, rfl, h1, h2, h3, h4, h5, h6, h7, h8, h9⟩ := main
  refine ⟨?_, ?_, ?_, ?_, ?_, ?_, ?_, ?_, ?_, ?_, ?_⟩
  · rw [mapGet_applyAud_ne _ _ _ (by decide),
      mapGet_applyIss_ne _ _ _ (by decide)]
    exact h1
  · rw [mapGet_applyAud_ne _ _ _ (by decide),
      mapGet_applyIss_ne _ _ _ (by decide)]
    exact h2
  · intro p hp
    exact mem_applyAud o (mem_applyIss o (h3 p hp)
      (ne_key_of_get_none h8 (h3 p hp))) (ne_key_of_get_none h9 (h3 p hp))
  · intro hE
    rw [mapGet_applyAud_ne _ _ _ (by decide),
      mapGet_applyIss_ne _ _ _ (by decide)]
    exact h4 hE
  · intro d hd
    obtain ⟨n, hP, hget⟩ := h5 d hd
    refine ⟨n, hP, ?_⟩
    rw [mapGet_applyAud_ne _ _ _ (by decide),
      mapGet_applyIss_ne _ _ _ (by decide)]
    exact hget
  · intro hN
    rw [mapGet_applyAud_ne _ _ _ (by decide),
      mapGet_applyIss_ne _ _ _ (by decide)]
    exact h6 hN
  · intro d hd
    obtain ⟨n, hP, hget⟩ := h7 d hd
    refine ⟨n, hP, ?_⟩
    rw [mapGet_applyAud_ne _ _ _ (by decide),
      mapGet_applyIss_ne _ _ _ (by decide)]
    exact hget
  · intro hI
    rw [mapGet_applyAud_ne _ _ _ (by decide), applyIss, hI]
    exact h8
  · intro i hI
    rw [mapGet_applyAud_ne _ _ _ (by decide), applyIss, hI,
      mapGet_mapSet_self]
  · intro hA
    rw [applyAud, hA, mapGet_applyIss_ne _ _ _ (by decide)]
    exact h9
  · intro a hA
    rw [applyAud, hA, mapGet_mapSet_self]

/-! ### Claim theorems -/

theorem nodup_all_eq_length_le_one {l : List Nat} {v : Nat}
    (hn : l.Nodup) (h : ∀ b ∈ l, b = v) : l.length ≤ 1 := by
  match l with
  | [] => simp
  | [a] => simp
  | a :: b :: t =>
    have ha := h a (by simp)
    have hb := h b (by simp)
    simp [List.nodup_cons] at hn
    omega

theorem dedup_le_one_of_const {l : List Nat} {v : Nat}
    (h : ∀ b ∈ l, b = v) : l.dedup.length ≤ 1 :=
  nodup_all_eq_length_le_one (List.nodup_dedup l)
    (fun b hb => h b (List.mem_dedup.1 hb))

/-- C7: the entropy gate fails with `KeyInvalid` exactly when the
candidate secret's length is not 32, all bytes are zero, all bytes are
one repeating value, or fewer than 8 distinct byte values occur; every
32-byte secret with at least 8 distinct byte values is accepted, and
every failure is a `keyInvalid` error. -/
theorem C7_entropy_gate (key : List Nat) :
    (assertEntropy key ≠ .ok () ↔
      (key.length ≠ 32 ∨ (∀ b ∈ key, b = 0) ∨ (∃ v, ∀ b ∈ key, b = v) ∨
        key.dedup.length < 8)) ∧
    (assertEntropy key ≠ .ok () →
      ∃ m, assertEntropy key = .error (.keyInvalid m)) ∧
    (key.length = 32 → 8 ≤ key.dedup.length → assertEntropy key = .ok ()) := by
  simp only [assertEntropy]
  split_ifs with h1 h2 h3 h4
  · refine ⟨?_, fun _ => ⟨_, rfl⟩, fun hl _ => absurd hl h1⟩
    simp only [ne_eq, reduceCtorEq, not_false_iff, true_iff]
    exact Or.inl h1
  · refine ⟨?_, fun _ => ⟨_, rfl⟩, fun hl hd => ?_⟩
    · simp only [ne_eq, reduceCtorEq, not_false_iff, true_iff]
      exact Or.inr (Or.inl (by simpa using h2))
    · have := dedup_le_one_of_const (v := 0) (by simpa using h2)
      omega
  · refine ⟨?_, fun _ => ⟨_, rfl⟩, fun hl hd => ?_⟩
    · simp only [ne_eq, reduceCtorEq, not_false_iff, true_iff]
      exact Or.inr (Or.inr (Or.inl ⟨key.headI, by simpa using h3⟩))
    · have := dedup_le_one_of_const (v := key.headI) (by simpa using h3)
      omega
  · refine ⟨?_, fun _ => ⟨_, rfl⟩, fun hl hd => absurd hd (by omega)⟩
    simp only [ne_eq, reduceCtorEq, not_false_iff, true_iff]
    exact Or.inr (Or.inr (Or.inr h4))
  · refine ⟨?_, fun h => absurd rfl h, fun _ _ => rfl⟩
    constructor
    · intro h
      exact absurd rfl h
    · intro hR
      exfalso
      rcases hR with h | h | ⟨v, hv⟩ | h
      · exact h1 h
      · apply h2
        simp only [List.all_eq_true, decide_eq_true_eq]
        exact h
      · apply h3
        have hlen : key.length = 32 := by simpa using h1
        have hne : key ≠ [] := by
          intro hnil
          rw [hnil] at hlen
          simp at hlen
        have hhead : key.headI = v := by
          cases key with
          | nil => exact absurd rfl hne
          | cons a t => exact hv a (by simp)
        simp only [List.all_eq_true, decide_eq_true_eq]
        intro b hb
        rw [hhead]
        exact hv b hb
      · exact h4 h

/-- C7 witness: the gate accepts the 32-byte fixture `secA` (32
distinct bytes) and the accept branch applies to it. -/
theorem C7_entropy_gate_witness :
    secA.length = 32 ∧ 8 ≤ secA.dedup.length ∧
      assertEntropy secA = .ok () := by
  refine ⟨by decide, by decide, (C7_entropy_gate secA).2.2 (by decide)
    (by decide)⟩

/-- C10: every failing key-store mutation is atomic: if `addKey`,
`rotate`, or `removeKey` raises an error, the post-state (id-to-secret
map and current id) equals the pre-state. -/
theorem C10_atomic_failures (s : MemoryKeyStore) (id : String)
    (sec : List Nat) :
    (∀ e, (addKeySeq s id sec).1 = .error e → (addKeySeq s id sec).2 = s) ∧
    (∀ e, (rotateSeq s id sec).1 = .error e → (rotateSeq s id sec).2 = s) ∧
    (∀ e, (removeKeySeq s id).1 = .error e → (removeKeySeq s id).2 = s) := by
  refine ⟨?_, ?_, ?_⟩
  · intro e
    cases hA : assertEntropy sec with
    | error e' => simp [addKeySeq, hA]
    | ok u => simp [addKeySeq, hA]
  · intro e
    cases hA : assertEntropy sec with
    | error e' => simp [rotateSeq, addKeySeq, hA]
    | ok u => simp [rotateSeq, addKeySeq, hA]
  · intro e
    cases hG : mapGet s.keys id with
    | none => simp [removeKeySeq, hG]
    | some key =>
      by_cases hc : s.currentKeyId = some id
      · simp [removeKeySeq, hG, hc]
      · simp [removeKeySeq, hG, hc]

/-- C10 witness: concrete failing mutations on `storeK1` leave it
untouched. -/
theorem C10_atomic_failures_witness :
    (addKeySeq storeK1 "k9" []).1 = .error (.keyInvalid "wrong length") ∧
    (addKeySeq storeK1 "k9" []).2 = storeK1 ∧
    (rotateSeq storeK1 "k9" []).2 = storeK1 ∧
    (removeKeySeq storeK1 "zz").1 = .error (.keyNotFound "zz") ∧
    (removeKeySeq storeK1 "zz").2 = storeK1 ∧
    (removeKeySeq storeK1 "k1").1 = .error .keyInUse ∧
    (removeKeySeq storeK1 "k1").2 = storeK1 := by
  refine ⟨by decide,
    (C10_atomic_failures storeK1 "k9" []).1 (.keyInvalid "wrong length")
      (by decide),
    (C10_atomic_failures storeK1 "k9" []).2.1 (.keyInvalid "wrong length")
      (by decide),
    by decide,
    (C10_atomic_failures storeK1 "zz" []).2.2 (.keyNotFound "zz")
      (by decide),
    by decide,
    (C10_atomic_failures storeK1 "k1" []).2.2 .keyInUse (by decide)⟩

theorem zeroize_eq_replicate (l : List Nat) :
    zeroize l = List.replicate l.length 0 := by
  induction l with
  | nil => rfl
  | cons a t ih => simp [zeroize, List.replicate_succ, *]

/-- C6: `removeKey` fails with `keyNotFound` on an absent id and with
`keyInUse` on the current id, leaving the store unchanged both times;
after rotating to a different key, removing the formerly current id
succeeds, overwrites the secret with zeros before deletion, and a
subsequent `getKey` fails with `keyNotFound`. -/
theorem C6_removeKey (s : MemoryKeyStore) (id newId : String)
    (sec key : List Nat) :
    (mapGet s.keys id = none →
      removeKeySeq s id = (.error (.keyNotFound id), s)) ∧
    (mapGet s.keys id = some key → s.currentKeyId = some id →
      removeKeySeq s id = (.error .keyInUse, s)) ∧
    (∀ s', s.currentKeyId = some id → id ≠ newId →
      mapGet s.keys id = some key → rotate s newId sec = .ok s' →
      removeKey s' id = .ok ⟨mapDelete (mapSet s'.keys id (zeroize key)) id,
        s'.currentKeyId⟩ ∧
      mapGet (mapSet s'.keys id (zeroize key)) id =
        some (List.replicate key.length 0) ∧
      getKey (⟨mapDelete (mapSet s'.keys id (zeroize key)) id,
        s'.currentKeyId⟩ : MemoryKeyStore) id = .error (.keyNotFound id)) := by
  refine ⟨?_, ?_, ?_⟩
  · intro h
    rw [removeKeySeq, h]
  · intro hG hc
    rw [removeKeySeq, hG]
    simp [hc]
  · intro s' hcur hne hG hrot
    have hform : rotate s newId sec =
        .ok ⟨mapSet s.keys newId sec, some newId⟩ := by
      cases hA : assertEntropy sec with
      | error e => simp [rotate, rotateSeq, addKeySeq, hA] at hrot
      | ok u =>
        by_cases hq : s.currentKeyId = none <;>
          simp [rotate, rotateSeq, addKeySeq, hA, hq]
    rw [hform] at hrot
    injection hrot with hrot
    have hkeys : s'.keys = mapSet s.keys newId sec := by rw [← hrot]
    have hcur' : s'.currentKeyId = some newId := by rw [← hrot]
    have hG' : mapGet s'.keys id = some key := by
      rw [hkeys, mapGet_mapSet_ne _ _ _ _ (Ne.symm hne)]
      exact hG
    have hne' : ¬s'.currentKeyId = some id := by
      rw [hcur']
      intro hc
      injection hc with hc
      exact hne hc.symm
    refine ⟨?_, ?_, ?_⟩
    · simp [removeKey, removeKeySeq, hG', hne']
    · rw [mapGet_mapSet_self, zeroize_eq_replicate]
    · rw [getKey]
      simp only [mapGet_mapDelete_self]

/-- C6 witness: on the concrete store, removal of an unknown id and of
the current id fail atomically; after rotating `k1 → k2`, removing
`k1` succeeds, its secret is zeroed in the intermediate map, and
`getKey "k1"` then fails with `keyNotFound`. -/
theorem C6_removeKey_witness :
    removeKeySeq storeK1 "zz" = (.error (.keyNotFound "zz"), storeK1) ∧
    removeKeySeq storeK1 "k1" = (.error .keyInUse, storeK1) ∧
    rotate storeK1 "k2" secB = .ok storeK12 ∧
    removeKey storeK12 "k1" = .ok ⟨mapDelete (mapSet storeK12.keys "k1"
      (zeroize secA)) "k1", storeK12.currentKeyId⟩ ∧
    mapGet (mapSet storeK12.keys "k1" (zeroize secA)) "k1" =
      some (List.replicate secA.length 0) ∧
    getKey (⟨mapDelete (mapSet storeK12.keys "k1" (zeroize secA)) "k1",
      storeK12.currentKeyId⟩ : MemoryKeyStore) "k1" =
      .error (.keyNotFound "k1") := by
  have hzz := (C6_removeKey storeK1 "zz" "k2" secB secA).1 (by decide)
  have h := C6_removeKey storeK1 "k1" "k2" secB secA
  have h3 := h.2.2 storeK12 (by decide) (by decide) (by decide) (by decide)
  exact ⟨hzz, h.2.1 (by decide) (by decide), by decide,
    h3.1, h3.2.1, h3.2.2⟩

/-- C5: `rotate` is exactly `addKey` followed by setting the new id
current; on success the new key is stored under `newId`, `newId` is
current (so subsequent `encrypt` calls resolve it), every key with a
different id keeps its bytes, and a token sealed under the previous
current key (when its id differs from `newId`) still decrypts to the
same result. -/
theorem C5_rotate (s : MemoryKeyStore) (newId : String) (sec : List Nat) :
    rotate s newId sec = (addKey s newId sec).map
      (fun s1 => { s1 with currentKeyId := some newId }) ∧
    (∀ s', rotate s newId sec = .ok s' →
      mapGet s'.keys newId = some sec ∧
      s'.currentKeyId = some newId ∧
      getCurrentKeyId s' = .ok newId ∧
      (∀ id, id ≠ newId → mapGet s'.keys id = mapGet s.keys id)) ∧
    (∀ s' payload o now now₂ nonce j kid key claims token,
      rotate s newId sec = .ok s' →
      s.currentKeyId = some kid → kid ≠ newId →
      mapGet s.keys kid = some key → '.' ∉ kid.data →
      nonce.length = 24 → (∀ b ∈ nonce, b < 256) →
      buildClaims payload o now j = .ok claims →
      encrypt s payload o now nonce j = .ok token →
      decrypt s' token now₂ = timeCheck now₂ claims) := by
  have hmain : ∀ s', rotate s newId sec = .ok s' →
      s' = ⟨mapSet s.keys newId sec, some newId⟩ := by
    intro s' hrot
    cases hA : assertEntropy sec with
    | error e => simp [rotate, rotateSeq, addKeySeq, hA] at hrot
    | ok u =>
      have hform : rotate s newId sec =
          .ok ⟨mapSet s.keys newId sec, some newId⟩ := by
        by_cases hq : s.currentKeyId = none <;>
          simp [rotate, rotateSeq, addKeySeq, hA, hq]
      rw [hform] at hrot
      injection hrot with hrot
      exact hrot.symm
  refine ⟨?_, ?_, ?_⟩
  · cases hA : assertEntropy sec with
    | error e =>
      simp [rotate, rotateSeq, addKey, addKeySeq, hA, Except.map]
    | ok u =>
      simp [rotate, rotateSeq, addKey, addKeySeq, hA, Except.map]
  · intro s' hrot
    obtain rfl := hmain s' hrot
    refine ⟨mapGet_mapSet_self _ _ _, rfl, rfl, ?_⟩
    intro id hid
    exact mapGet_mapSet_ne _ _ _ _ (Ne.symm hid)
  · intro s' payload o now now₂ nonce j kid key claims token hrot hcur
      hkne hkey hk hn24 hnb hbuild htok
    have hs' := hmain s' hrot
    have hkey' : mapGet s'.keys kid = some key := by
      rw [hs']
      exact (mapGet_mapSet_ne _ _ _ _ (Ne.symm hkne)).trans hkey
    exact decrypt_encrypt s s' payload o now now₂ nonce j kid key claims
      token hcur hkey hkey' hk hn24 hnb hbuild htok

/-- C5 counterexample: the claim as stated fails when `rotate` reuses
an existing id: rotating `storeK1` to id `k1` with a new secret
overwrites the previously stored bytes, so the previously stored key
does not remain present with unchanged bytes. -/
theorem C5_counterexample :
    mapGet storeK1.keys "k1" = some secA ∧
    rotate storeK1 "k1" secB = .ok rotatedK1 ∧
    mapGet rotatedK1.keys "k1" = some secB ∧
    secB ≠ secA := by
  exact ⟨by decide, by decide, by decide, by decide⟩

/-- C5 witness: rotating `storeK1` to the fresh id `k2` behaves as
`addKey` + set-current, keeps `k1` unchanged, and the pre-rotation
token still decrypts to the same claims afterwards. -/
theorem C5_rotate_witness :
    rotate storeK1 "k2" secB = .ok storeK12 ∧
    mapGet storeK12.keys "k2" = some secB ∧
    storeK12.currentKeyId = some "k2" ∧
    mapGet storeK12.keys "k1" = mapGet storeK1.keys "k1" ∧
    decrypt storeK12 tokenW 2000 = timeCheck 2000 claimsW := by
  have h2 := (C5_rotate storeK1 "k2" secB).2.1 storeK12 (by decide)
  have h3 := (C5_rotate storeK1 "k2" secB).2.2 storeK12 payloadW optW
    1000 2000 nonceA "abc" "k1" secA claimsW tokenW (by decide) (by decide)
    (by decide) (by decide) (by decide) (by decide) (by decide) (by decide)
    (by decide)
  exact ⟨by decide, h2.1, h2.2.1, h2.2.2.2 "k1" (by decide), h3⟩

theorem addKey_ok_inv {s s' : MemoryKeyStore} {id : String}
    {sec : List Nat} (h : addKey s id sec = .ok s') :
    s'.keys = mapSet s.keys id sec ∧
    s'.currentKeyId = (if s.currentKeyId = none then some id
      else s.currentKeyId) := by
  cases hA : assertEntropy sec with
  | error e => simp [addKey, addKeySeq, hA] at h
  | ok u =>
    by_cases hq : s.currentKeyId = none <;>
      simp [addKey, addKeySeq, hA, hq] at h <;>
      simp [← h, hq]

theorem rotate_ok_inv {s s' : MemoryKeyStore} {id : String}
    {sec : List Nat} (h : rotate s id sec = .ok s') :
    s'.keys = mapSet s.keys id sec ∧ s'.currentKeyId = some id := by
  cases hA : assertEntropy sec with
  | error e => simp [rotate, rotateSeq, addKeySeq, hA] at h
  | ok u =>
    by_cases hq : s.currentKeyId = none <;>
      simp [rotate, rotateSeq, addKeySeq, hA, hq] at h <;>
      simp [← h]

theorem removeKey_ok_inv {s s' : MemoryKeyStore} {id : String}
    (h : removeKey s id = .ok s') :
    s.currentKeyId ≠ some id ∧
    s'.currentKeyId = s.currentKeyId ∧
    (∀ k, k ≠ id → mapGet s'.keys k = mapGet s.keys k) := by
  cases hG : mapGet s.keys id with
  | none => simp [removeKey, removeKeySeq, hG] at h
  | some key =>
    by_cases hc : s.currentKeyId = some id
    · simp [removeKey, removeKeySeq, hG, hc] at h
    · simp [removeKey, removeKeySeq, hG, hc] at h
      refine ⟨hc, by simp [← h], ?_⟩
      intro k hk
      rw [← h]
      simp only []
      rw [mapGet_mapDelete_ne _ _ _ (Ne.symm hk),
        mapGet_mapSet_ne _ _ _ _ (Ne.symm hk)]

/-- C8: in every key-store state reachable from the empty store, a set
current key id always refers to an existing record, and removing the
key that is current while it is still current always fails (with
`keyInUse`), so no operation ever removes the current key. -/
theorem C8_invariant (s : MemoryKeyStore) (h : Reachable s) :
    (∀ id, s.currentKeyId = some id → ∃ key, mapGet s.keys id = some key) ∧
    (∀ id, s.currentKeyId = some id → removeKey s id = .error .keyInUse) := by
  have main : ∀ id, s.currentKeyId = some id →
      ∃ key, mapGet s.keys id = some key := by
    induction h with
    | empty => intro id hc; cases hc
    | ofAddKey hr hok ih =>
      intro id hc
      obtain ⟨hkeys, hcur⟩ := addKey_ok_inv hok
      rename_i s0 s' id0 sec0
      rw [hcur] at hc
      by_cases hq : s0.currentKeyId = none
      · rw [if_pos hq] at hc
        injection hc with hc
        subst hc
        exact ⟨sec0, by rw [hkeys, mapGet_mapSet_self]⟩
      · rw [if_neg hq] at hc
        obtain ⟨key0, hk0⟩ := ih id hc
        by_cases hid : id = id0
        · subst hid
          exact ⟨sec0, by rw [hkeys, mapGet_mapSet_self]⟩
        · exact ⟨key0, by
            rw [hkeys, mapGet_mapSet_ne _ _ _ _ (fun hh => hid hh.symm)]
            exact hk0⟩
    | ofRotate hr hok ih =>
      intro id hc
      obtain ⟨hkeys, hcur⟩ := rotate_ok_inv hok
      rename_i s0 s' id0 sec0
      rw [hcur] at hc
      injection hc with hc
      subst hc
      exact ⟨sec0, by rw [hkeys, mapGet_mapSet_self]⟩
    | ofRemoveKey hr hok ih =>
      intro id hc
      obtain ⟨hne, hcur, hkeys⟩ := removeKey_ok_inv hok
      rename_i s0 s' id0
      rw [hcur] at hc
      have hid : id ≠ id0 := by
        intro hh
        subst hh
        exact hne hc
      obtain ⟨key0, hk0⟩ := ih id hc
      exact ⟨key0, by rw [hkeys id hid]; exact hk0⟩
  refine ⟨main, ?_⟩
  intro id hc
  obtain ⟨key, hkey⟩ := main id hc
  simp [removeKey, removeKeySeq, hkey, hc]

/-- C8 witness: `storeK1` is reachable (one `addKey` from the empty
store); its current id `k1` resolves to a record and removing it while
current fails with `keyInUse`. -/
theorem C8_invariant_witness :
    (∃ key, mapGet storeK1.keys "k1" = some key) ∧
    removeKey storeK1 "k1" = .error .keyInUse := by
  have hreach : Reachable storeK1 :=
    Reachable.ofAddKey Reachable.empty
      (show addKey MemoryKeyStore.empty "k1" secA = .ok storeK1 by decide)
  have h := C8_invariant storeK1 hreach
  exact ⟨h.1 "k1" (by decide), h.2 "k1" (by decide)⟩

/-- C4: for every token that decrypt authenticates and parses into
payload `P`, evaluated at clock `now`: a numeric `exp ≤ now` fails with
`tokenExpired exp`; otherwise a numeric `nbf > now` fails with
`tokenNotActive nbf`; otherwise decrypt returns `P` — in particular a
token with `nbf` in the past and `exp` in the future decrypts. -/
theorem C4_time_claims (s : MemoryKeyStore) (token : String) (now : Int)
    (P : Claims) (hp : decryptParse s token = some P) :
    (∀ e, mapGet P "exp" = some (.num e) → e ≤ now →
      decrypt s token now = .error (.tokenExpired e)) ∧
    (∀ b, (∀ e, mapGet P "exp" = some (.num e) → now < e) →
      mapGet P "nbf" = some (.num b) → now < b →
      decrypt s token now = .error (.tokenNotActive b)) ∧
    ((∀ e, mapGet P "exp" = some (.num e) → now < e) →
      (∀ b, mapGet P "nbf" = some (.num b) → b ≤ now) →
      decrypt s token now = .ok P) := by
  have hd : decrypt s token now = timeCheck now P := by
    rw [decrypt, hp]
  refine ⟨?_, ?_, ?_⟩
  · intro e he hle
    rw [hd]
    simp only [timeCheck, he]
    rw [if_pos hle]
  · intro b hexp hb hlt
    have hn : nbfCheck now P = .error (.tokenNotActive b) := by
      simp only [nbfCheck, hb]
      rw [if_pos hlt]
    rw [hd]
    simp only [timeCheck]
    cases hE : mapGet P "exp" with
    | none => exact hn
    | some v =>
      cases v with
      | num e =>
        have hgt := hexp e hE
        show (if e ≤ now then Except.error (TectoErr.tokenExpired e)
          else nbfCheck now P) = Except.error (TectoErr.tokenNotActive b)
        rw [if_neg (by omega)]
        exact hn
      | str x => exact hn
  · intro hexp hnbf
    rw [hd]
    exact timeCheck_pass now P hexp hnbf

/-- C4 witness: the concrete sealed token `tokenW` (exp = 4600) parses
to `claimsW`; at clock 5000 it fails with `tokenExpired 4600` and at
clock 2000 (past `iat`, before `exp`) it decrypts to `claimsW`. -/
theorem C4_time_claims_witness :
    decryptParse storeK1 tokenW = some claimsW ∧
    decrypt storeK1 tokenW 5000 = .error (.tokenExpired 4600) ∧
    decrypt storeK1 tokenW 2000 = .ok claimsW := by
  have h5 := C4_time_claims storeK1 tokenW 5000 claimsW (by decide)
  have h2 := C4_time_claims storeK1 tokenW 2000 claimsW (by decide)
  refine ⟨by decide, h5.1 4600 (by decide) (by decide), h2.2.2 ?_ ?_⟩
  · intro e he
    have h46 : mapGet claimsW "exp" = some (ClaimVal.num 4600) := by decide
    rw [h46] at he
    injection he with he
    injection he with he
    omega
  · intro b hb
    have hnone : mapGet claimsW "nbf" = none := by decide
    rw [hnone] at hb
    cases hb

theorem decryptParse_some_inv (s : MemoryKeyStore) (token : String)
    (P : Claims) (h : decryptParse s token = some P) :
    ∃ pfx ver kid nB cB key nonce ct pt,
      splitOnChar '.' token.data = [pfx, ver, kid, nB, cB] ∧
      pfx = tectoTag ∧ ver = versionTag ∧
      getKey s (String.mk kid) = .ok key ∧
      b64urlDecodeList nB = some nonce ∧
      b64urlDecodeList cB = some ct ∧
      nonce.length = 24 ∧
      aeadOpen key nonce ct = some pt ∧
      claimsDecode pt = some P := by
  rcases hs : splitOnChar '.' token.data with
    _ | ⟨pfx, _ | ⟨ver, _ | ⟨kid, _ | ⟨nB, _ | ⟨cB, _ | ⟨x6, rest⟩⟩⟩⟩⟩⟩ <;>
    simp only [decryptParse, hs, reduceCtorEq] at h
  by_cases htag : (pfx = tectoTag ∧ ver = versionTag)
  · rw [if_pos htag] at h
    cases hk : getKey s (String.mk kid) with
    | error er => simp only [hk, reduceCtorEq] at h
    | ok key =>
      simp only [hk] at h
      cases hn : b64urlDecodeList nB with
      | none => simp only [hn, reduceCtorEq] at h
      | some nonce =>
        cases hc : b64urlDecodeList cB with
        | none => simp only [hn, hc, reduceCtorEq] at h
        | some ct =>
          simp only [hn, hc] at h
          by_cases hlen : nonce.length = 24
          · rw [if_pos hlen] at h
            cases ho : aeadOpen key nonce ct with
            | none => simp only [ho, reduceCtorEq] at h
            | some pt =>
              simp only [ho] at h
              exact ⟨pfx, ver, kid, nB, cB, key, nonce, ct, pt, rfl,
                htag.1, htag.2, hk, hn, hc, hlen, ho, h⟩
          · rw [if_neg hlen] at h
            cases h
  · rw [if_neg htag] at h
    cases h

theorem decryptParse_len_ne_five (s : MemoryKeyStore) (token : String)
    (h : (splitOnChar '.' token.data).length ≠ 5) :
    decryptParse s token = none := by
  rw [decryptParse]
  rcases hs : splitOnChar '.' token.data with
    _ | ⟨a, _ | ⟨b, _ | ⟨c, _ | ⟨d, _ | ⟨e, _ | ⟨f, rest⟩⟩⟩⟩⟩⟩
  · rfl
  · rfl
  · rfl
  · rfl
  · rfl
  · rw [hs] at h; simp at h
  · rfl

/-- C2: every decrypt failure before the AEAD open and JSON parse have
both succeeded — empty string, wrong segment count, wrong
protocol/version tag, key-lookup failure, base64 decode failure, bad
nonce length, or authentication/parse failure — is the single generic
`invalidToken` error, and the distinct `tokenExpired`/`tokenNotActive`
errors occur only on tokens whose AEAD open and parse succeeded. -/
theorem C2_error_folding (s : MemoryKeyStore) (token : String) (now : Int) :
    (token = "" → decrypt s token now = .error .invalidToken) ∧
    ((splitOnChar '.' token.data).length ≠ 5 →
      decrypt s token now = .error .invalidToken) ∧
    (∀ pfx ver kid nB cB,
      splitOnChar '.' token.data = [pfx, ver, kid, nB, cB] →
      ¬(pfx = tectoTag ∧ ver = versionTag) →
      decrypt s token now = .error .invalidToken) ∧
    (∀ pfx ver kid nB cB er,
      splitOnChar '.' token.data = [pfx, ver, kid, nB, cB] →
      getKey s (String.mk kid) = .error er →
      decrypt s token now = .error .invalidToken) ∧
    (∀ pfx ver kid nB cB,
      splitOnChar '.' token.data = [pfx, ver, kid, nB, cB] →
      (b64urlDecodeList nB = none ∨ b64urlDecodeList cB = none) →
      decrypt s token now = .error .invalidToken) ∧
    (∀ pfx ver kid nB cB nonce,
      splitOnChar '.' token.data = [pfx, ver, kid, nB, cB] →
      b64urlDecodeList nB = some nonce → nonce.length ≠ 24 →
      decrypt s token now = .error .invalidToken) ∧
    (∀ pfx ver kid nB cB key nonce ct,
      splitOnChar '.' token.data = [pfx, ver, kid, nB, cB] →
      getKey s (String.mk kid) = .ok key →
      b64urlDecodeList nB = some nonce → b64urlDecodeList cB = some ct →
      aeadOpen key nonce ct = none →
      decrypt s token now = .error .invalidToken) ∧
    (∀ pfx ver kid nB cB key nonce ct pt,
      splitOnChar '.' token.data = [pfx, ver, kid, nB, cB] →
      getKey s (String.mk kid) = .ok key →
      b64urlDecodeList nB = some nonce → b64urlDecodeList cB = some ct →
      aeadOpen key nonce ct = some pt → claimsDecode pt = none →
      decrypt s token now = .error .invalidToken) ∧
    (∀ e, decrypt s token now = .error (.tokenExpired e) →
      ∃ P, decryptParse s token = some P ∧
        ∃ pfx ver kid nB cB key nonce ct pt,
          splitOnChar '.' token.data = [pfx, ver, kid, nB, cB] ∧
          pfx = tectoTag ∧ ver = versionTag ∧
          getKey s (String.mk kid) = .ok key ∧
          b64urlDecodeList nB = some nonce ∧
          b64urlDecodeList cB = some ct ∧ nonce.length = 24 ∧
          aeadOpen key nonce ct = some pt ∧ claimsDecode pt = some P) ∧
    (∀ a, decrypt s token now = .error (.tokenNotActive a) →
      ∃ P, decryptParse s token = some P ∧
        ∃ pfx ver kid nB cB key nonce ct pt,
          splitOnChar '.' token.data = [pfx, ver, kid, nB, cB] ∧
          pfx = tectoTag ∧ ver = versionTag ∧
          getKey s (String.mk kid) = .ok key ∧
          b64urlDecodeList nB = some nonce ∧
          b64urlDecodeList cB = some ct ∧ nonce.length = 24 ∧
          aeadOpen key nonce ct = some pt ∧ claimsDecode pt = some P) := by
  have hinv : decryptParse s token = none →
      decrypt s token now = .error .invalidToken := by
    intro hq
    rw [decrypt, hq]
  refine ⟨?_, ?_, ?_, ?_, ?_, ?_, ?_, ?_, ?_, ?_⟩
  · intro he
    subst he
    exact hinv (decryptParse_len_ne_five s "" (by decide))
  · intro hlen
    exact hinv (decryptParse_len_ne_five s token hlen)
  · intro pfx ver kid nB cB hsplit htag
    apply hinv
    simp only [decryptParse, hsplit]
    rw [if_neg htag]
  · intro pfx ver kid nB cB er hsplit her
    apply hinv
    simp only [decryptParse, hsplit]
    by_cases htag : (pfx = tectoTag ∧ ver = versionTag)
    · rw [if_pos htag]
      simp only [her]
    · rw [if_neg htag]
  · intro pfx ver kid nB cB hsplit hdec
    apply hinv
    simp only [decryptParse, hsplit]
    by_cases htag : (pfx = tectoTag ∧ ver = versionTag)
    · rw [if_pos htag]
      cases hk : getKey s (String.mk kid) with
      | error er => rfl
      | ok key =>
        rcases hdec with hd1 | hd2
        · simp only [hd1]
        · cases hn : b64urlDecodeList nB with
          | none => rfl
          | some nonce => simp only [hn, hd2]
    · rw [if_neg htag]
  · intro pfx ver kid nB cB nonce hsplit hn hlen
    apply hinv
    simp only [decryptParse, hsplit]
    by_cases htag : (pfx = tectoTag ∧ ver = versionTag)
    · rw [if_pos htag]
      cases hk : getKey s (String.mk kid) with
      | error er => rfl
      | ok key =>
        cases hc : b64urlDecodeList cB with
        | none => simp only [hn]
        | some ct =>
          simp only [hn, hc]
          rw [if_neg hlen]
    · rw [if_neg htag]
  · intro pfx ver kid nB cB key nonce ct hsplit hk hn hc ho
    apply hinv
    simp only [decryptParse, hsplit]
    by_cases htag : (pfx = tectoTag ∧ ver = versionTag)
    · rw [if_pos htag]
      simp only [hk, hn, hc]
      by_cases hlen : nonce.length = 24
      · rw [if_pos hlen]
        simp only [ho]
      · rw [if_neg hlen]
    · rw [if_neg htag]
  · intro pfx ver kid nB cB key nonce ct pt hsplit hk hn hc ho hcd
    apply hinv
    simp only [decryptParse, hsplit]
    by_cases htag : (pfx = tectoTag ∧ ver = versionTag)
    · rw [if_pos htag]
      simp only [hk, hn, hc]
      by_cases hlen : nonce.length = 24
      · rw [if_pos hlen]
        simp only [ho, hcd]
      · rw [if_neg hlen]
    · rw [if_neg htag]
  · intro e hdec
    cases hq : decryptParse s token with
    | none =>
      rw [decrypt, hq] at hdec
      injection hdec with hdec
      cases hdec
    | some P =>
      obtain ⟨pfx, ver, kid, nB, cB, key, nonce, ct, pt, h1, h2, h3, h4,
        h5, h6, h7, h8, h9⟩ := decryptParse_some_inv s token P hq
      exact ⟨P, rfl, pfx, ver, kid, nB, cB, key, nonce, ct, pt, h1, h2,
        h3, h4, h5, h6, h7, h8, h9⟩
  · intro a hdec
    cases hq : decryptParse s token with
    | none =>
      rw [decrypt, hq] at hdec
      injection hdec with hdec
      cases hdec
    | some P =>
      obtain ⟨pfx, ver, kid, nB, cB, key, nonce, ct, pt, h1, h2, h3, h4,
        h5, h6, h7, h8, h9⟩ := decryptParse_some_inv s token P hq
      exact ⟨P, rfl, pfx, ver, kid, nB, cB, key, nonce, ct, pt, h1, h2,
        h3, h4, h5, h6, h7, h8, h9⟩

/-- C2 witness: the structural failures on concrete inputs — the empty
string, a 2-segment string, a wrong version tag, and an unknown key id
— all produce exactly the generic `invalidToken` error. -/
theorem C2_error_folding_witness :
    decrypt storeK1 "" 0 = .error .invalidToken ∧
    decrypt storeK1 "a.b" 0 = .error .invalidToken ∧
    decrypt storeK1 "tecto.v2.k1.AA.AA" 0 = .error .invalidToken ∧
    decrypt storeK1 "tecto.v1.zz.AA.AA" 0 = .error .invalidToken := by
  refine ⟨(C2_error_folding storeK1 "" 0).1 rfl,
    (C2_error_folding storeK1 "a.b" 0).2.1 (by decide),
    (C2_error_folding storeK1 "tecto.v2.k1.AA.AA" 0).2.2.1
      "tecto".data "v2".data "k1".data "AA".data "AA".data (by decide)
      (by decide),
    (C2_error_folding storeK1 "tecto.v1.zz.AA.AA" 0).2.2.2.1
      "tecto".data "v1".data "zz".data "AA".data "AA".data
      (.keyNotFound "zz") (by decide) (by decide)⟩

/-- C3: for every store state whose current key id contains no dot,
the token returned by `encrypt` splits on `.` into exactly the 5-field
wire frame: `tecto`, `v1`, the current key id, a base64url segment
decoding to the 24-byte nonce, and the base64url ciphertext (whose
byte length is plaintext length + 16). -/
theorem C3_wire_format (s : MemoryKeyStore) (payload : Claims)
    (o : Option SignOptions) (now : Int) (nonce : List Nat) (j : String)
    (kid : String) (key : List Nat) (claims : Claims) (token : String)
    (hcur : s.currentKeyId = some kid)
    (hkey : mapGet s.keys kid = some key)
    (hk : '.' ∉ kid.data) (hn24 : nonce.length = 24)
    (hnb : ∀ b ∈ nonce, b < 256)
    (hbuild : buildClaims payload o now j = .ok claims)
    (htok : encrypt s payload o now nonce j = .ok token) :
    splitOnChar '.' token.data =
      [tectoTag, versionTag, kid.data, b64urlEncodeList nonce,
        b64urlEncodeList (aeadSeal key nonce (claimsEnc claims))] ∧
    b64urlDecodeList (b64urlEncodeList nonce) = some nonce ∧
    nonce.length = 24 ∧
    (aeadSeal key nonce (claimsEnc claims)).length =
      (claimsEnc claims).length + 16 := by
  rw [encrypt_ok s payload o now nonce j kid key claims hcur hkey hbuild]
    at htok
  injection htok with htok
  subst htok
  refine ⟨?_, b64urlDecode_encode nonce hnb, hn24, ?_⟩
  · exact splitOnChar_frame kid _ _ hk
      (fun hm => b64urlEncodeList_ne_dot _ _ hm rfl)
      (fun hm => b64urlEncodeList_ne_dot _ _ hm rfl)
  · simp [aeadSeal, aeadTag_length]

/-- C3 counterexample: the claim quantifies over every key id that
`addKey` accepts, but `addKey` accepts the dotted id `a.b` (no check),
and the token sealed under it splits into 6 segments, not 5. -/
theorem C3_counterexample :
    addKey MemoryKeyStore.empty "a.b" secA = .ok storeDot ∧
    encrypt storeDot [] none 0 nonceA "j" = .ok tokenDot ∧
    (splitOnChar '.' tokenDot.data).length = 6 := by
  exact ⟨by decide, by decide, by decide⟩

/-- C3 witness: the concrete token `tokenW` sealed under id `k1`
splits into exactly the 5 expected segments and its nonce segment
decodes back to the 24-byte `nonceA`. -/
theorem C3_wire_format_witness :
    encrypt storeK1 payloadW optW 1000 nonceA "abc" = .ok tokenW ∧
    splitOnChar '.' tokenW.data =
      [tectoTag, versionTag, "k1".data, b64urlEncodeList nonceA,
        b64urlEncodeList (aeadSeal secA nonceA (claimsEnc claimsW))] ∧
    b64urlDecodeList (b64urlEncodeList nonceA) = some nonceA := by
  have h := C3_wire_format storeK1 payloadW optW 1000 nonceA "abc" "k1"
    secA claimsW tokenW (by decide) (by decide) (by decide) (by decide)
    (by decide) (by decide) (by decide)
  exact ⟨by decide, h.1, h.2.1⟩

theorem stringData_mk (l : List Char) : (String.mk l).data = l := rfl

/-- C9: two `encrypt` calls with identical arguments and distinct
fresh 24-byte nonces always produce distinct token strings (the nonce
is an oracle input drawn fresh from the CSPRNG on every call; distinct
nonces yield distinct base64url nonce segments, hence distinct
tokens). -/
theorem C9_nonce_distinct (s : MemoryKeyStore) (payload : Claims)
    (o : Option SignOptions) (now : Int) (n₁ n₂ : List Nat)
    (j₁ j₂ : String) (t₁ t₂ : String)
    (h1 : encrypt s payload o now n₁ j₁ = .ok t₁)
    (h2 : encrypt s payload o now n₂ j₂ = .ok t₂)
    (hb1 : ∀ b ∈ n₁, b < 256) (hb2 : ∀ b ∈ n₂, b < 256)
    (hne : n₁ ≠ n₂) : t₁ ≠ t₂ := by
  simp only [encrypt] at h1 h2
  cases hcur : getCurrentKeyId s with
  | error e => simp only [hcur, reduceCtorEq] at h1
  | ok kid =>
    simp only [hcur] at h1 h2
    cases hg : getKey s kid with
    | error e => simp only [hg, reduceCtorEq] at h1
    | ok key =>
      simp only [hg] at h1 h2
      cases hbuild1 : buildClaims payload o now j₁ with
      | error e => simp only [hbuild1, reduceCtorEq] at h1
      | ok claims₁ =>
        cases hbuild2 : buildClaims payload o now j₂ with
        | error e => simp only [hbuild2, reduceCtorEq] at h2
        | ok claims₂ =>
          simp only [hbuild1] at h1
          simp only [hbuild2] at h2
          injection h1 with h1
          injection h2 with h2
          subst h1
          subst h2
          intro heq
          apply hne
          have hdata := congrArg String.data heq
          simp only [frameToken, stringData_mk, List.append_assoc,
            List.cons_append] at hdata
          have e1 := List.append_cancel_left hdata
          injection e1 with _ e2
          have e3 := List.append_cancel_left e2
          injection e3 with _ e4
          have e5 := List.append_cancel_left e4
          injection e5 with _ e6
          have e7 := append_sep_inj
            (fun hm => b64urlEncodeList_ne_dot n₁ '.' hm rfl)
            (fun hm => b64urlEncodeList_ne_dot n₂ '.' hm rfl) e6
          have hd : some n₁ = some n₂ := by
            rw [← b64urlDecode_encode n₁ hb1, e7.1,
              b64urlDecode_encode n₂ hb2]
          injection hd

/-- C9 witness: at two concrete distinct nonces with otherwise
identical arguments, the two sealed tokens differ. -/
theorem C9_nonce_distinct_witness :
    okToken (encrypt storeK1 payloadW optW 1000 ((List.range 24).map
      (fun i => i + 1)) "abc") ≠ tokenW := by
  exact C9_nonce_distinct storeK1 payloadW optW 1000
    ((List.range 24).map (fun i => i + 1)) nonceA "abc" "abc" _ tokenW
    (by decide) (by decide) (by decide) (by decide) (by decide)

/-- C1 (amended): for every claim set avoiding the six registered
names, every store whose current key id contains no dot, and every
valid options whose requested `exp` lies strictly after and whose
requested `nbf` lies at or before the decrypt-time clock, decrypt of
encrypt succeeds and returns the claim set containing all payload
fields plus `iat` (the seal-time clock) and `jti` (caller-supplied or
generated), and containing `exp`/`nbf`/`iss`/`aud` exactly when the
corresponding option was supplied, with `exp = iat + duration` and
`nbf = iat + duration`. -/
theorem C1_roundtrip (s : MemoryKeyStore) (payload : Claims)
    (o : Option SignOptions) (now now₂ : Int) (nonce : List Nat)
    (j : String) (kid : String) (key : List Nat) (claims : Claims)
    (token : String)
    (hcur : s.currentKeyId = some kid)
    (hkey : mapGet s.keys kid = some key)
    (hk : '.' ∉ kid.data)
    (hn24 : nonce.length = 24) (hnb : ∀ b ∈ nonce, b < 256)
    (hiat0 : mapGet payload "iat" = none)
    (hjti0 : mapGet payload "jti" = none)
    (hexp0 : mapGet payload "exp" = none)
    (hnbf0 : mapGet payload "nbf" = none)
    (hiss0 : mapGet payload "iss" = none)
    (haud0 : mapGet payload "aud" = none)
    (hbuild : buildClaims payload o now j = .ok claims)
    (htok : encrypt s payload o now nonce j = .ok token)
    (hexpT : ∀ d n, expStr o = some d → parseDuration d = .ok n →
      now₂ < now + n)
    (hnbfT : ∀ d n, nbfStr o = some d → parseDuration d = .ok n →
      now + n ≤ now₂) :
    decrypt s token now₂ = .ok claims ∧
    (∀ p ∈ payload, p ∈ claims) ∧
    mapGet claims "iat" = some (.num now) ∧
    mapGet claims "jti" = some (.str (jtiOf o j)) ∧
    (expStr o = none → mapGet claims "exp" = none) ∧
    (∀ d n, expStr o = some d → parseDuration d = .ok n →
      mapGet claims "exp" = some (.num (now + n))) ∧
    (nbfStr o = none → mapGet claims "nbf" = none) ∧
    (∀ d n, nbfStr o = some d → parseDuration d = .ok n →
      mapGet claims "nbf" = some (.num (now + n))) ∧
    (issStr o = none → mapGet claims "iss" = none) ∧
    (∀ i, issStr o = some i → mapGet claims "iss" = some (.str i)) ∧
    (audStr o = none → mapGet claims "aud" = none) ∧
    (∀ a, audStr o = some a → mapGet claims "aud" = some (.str a)) := by
  obtain ⟨hiat, hjti, hmem, hexpN, hexpS, hnbfN, hnbfS, hissN, hissS,
    haudN, haudS⟩ := buildClaims_spec payload o now j claims hiat0 hjti0
    hexp0 hnbf0 hiss0 haud0 hbuild
  have hdec : decrypt s token now₂ = timeCheck now₂ claims :=
    decrypt_encrypt s s payload o now now₂ nonce j kid key claims token
      hcur hkey hkey hk hn24 hnb hbuild htok
  have hexpPass : ∀ e, mapGet claims "exp" = some (.num e) → now₂ < e := by
    intro e he
    cases hE : expStr o with
    | none => rw [hexpN hE] at he; cases he
    | some d =>
      obtain ⟨n, hP, hget⟩ := hexpS d hE
      rw [hget] at he
      injection he with he
      injection he with he
      rw [← he]
      exact hexpT d n hE hP
  have hnbfPass : ∀ b, mapGet claims "nbf" = some (.num b) → b ≤ now₂ := by
    intro b hbq
    cases hN : nbfStr o with
    | none => rw [hnbfN hN] at hbq; cases hbq
    | some d =>
      obtain ⟨n, hP, hget⟩ := hnbfS d hN
      rw [hget] at hbq
      injection hbq with hbq
      injection hbq with hbq
      rw [← hbq]
      exact hnbfT d n hN hP
  refine ⟨?_, hmem, hiat, hjti, hexpN, ?_, hnbfN, ?_, hissN, hissS,
    haudN, haudS⟩
  · rw [hdec]
    exact timeCheck_pass now₂ claims hexpPass hnbfPass
  · intro d n hd hp
    obtain ⟨n', hP', hget⟩ := hexpS d hd
    rw [hp] at hP'
    injection hP' with hP'
    rw [← hP'] at hget
    exact hget
  · intro d n hd hp
    obtain ⟨n', hP', hget⟩ := hnbfS d hd
    rw [hp] at hP'
    injection hP' with hP'
    rw [← hP'] at hget
    exact hget

/-- C1 counterexample: the claim as stated fails on the code:
(1) a payload already containing `exp` (= 5) round-trips into a decrypt
failure at the seal-time clock, and carries `exp` without `expiresIn`
being supplied; (2) the valid option `expiresIn = "0s"` yields
`exp = iat`, already expired at the seal-time clock; (3) a store whose
current key id contains a dot (accepted by `addKey`) breaks the round
trip entirely. -/
theorem C1_counterexample :
    encrypt storeK1 [("exp", .num 5)] none 1000 nonceA "j" =
      .ok tokenExpClaim ∧
    decrypt storeK1 tokenExpClaim 1000 = .error (.tokenExpired 5) ∧
    encrypt storeK1 [] (some { expiresIn := some "0s" }) 1000 nonceA "j" =
      .ok tokenZeroDur ∧
    decrypt storeK1 tokenZeroDur 1000 = .error (.tokenExpired 1000) ∧
    encrypt storeDot [] none 0 nonceA "j" = .ok tokenDot ∧
    decrypt storeDot tokenDot 0 = .error .invalidToken := by
  exact ⟨by decide, by decide, by decide, by decide, by decide, by decide⟩

/-- C1 witness: the concrete round trip: sealing `payloadW` with a
one-hour expiry at time 1000 and decrypting at time 2000 returns the
claim set with the custom field, `iat = 1000`, the supplied `jti`,
`exp = 4600`, and no `nbf`. -/
theorem C1_roundtrip_witness :
    encrypt storeK1 payloadW optW 1000 nonceA "abc" = .ok tokenW ∧
    decrypt storeK1 tokenW 2000 = .ok claimsW ∧
    ("role", ClaimVal.str "admin") ∈ claimsW ∧
    mapGet claimsW "iat" = some (.num 1000) ∧
    mapGet claimsW "jti" = some (.str (jtiOf optW "abc")) ∧
    mapGet claimsW "exp" = some (.num 4600) ∧
    mapGet claimsW "nbf" = none := by
  have h := C1_roundtrip storeK1 payloadW optW 1000 2000 nonceA "abc"
    "k1" secA claimsW tokenW (by decide) (by decide) (by decide)
    (by decide) (by decide) (by decide) (by decide) (by decide)
    (by decide) (by decide) (by decide) (by decide) (by decide)
    (by
      intro d n hd hp
      have h1h : expStr optW = some "1h" := by decide
      rw [h1h] at hd
      injection hd with hd
      subst hd
      have h36 : parseDuration "1h" = .ok 3600 := by decide
      rw [h36] at hp
      injection hp with hp
      omega)
    (by
      intro d n hd hp
      have hnn : nbfStr optW = none := by decide
      rw [hnn] at hd
      cases hd)
  obtain ⟨hdec, hmem, hiat, hjti, hexpN, hexpS, hnbfN, hnbfS, hissN,
    hissS, haudN, haudS⟩ := h
  have hexp46 : mapGet claimsW "exp" = some (.num 4600) := by
    have := hexpS "1h" 3600 (by decide) (by decide)
    simpa using this
  exact ⟨by decide, hdec, hmem _ (by decide), hiat, hjti, hexp46,
    hnbfN (by decide)⟩

end Tecto
